import Mathlib

namespace Ftml

/-!
Verification development for the ftml wikitext parser and renderer.

The preprocessor section embeds `src/filter/misc.rs`: the `substitute`
function applies six regular-expression replacement passes, each one
repeated on the leftmost match until no match remains (`regex_replace`'s
`while let Some(mtch) = regex.find(text)` loop).  Each regex is embedded
as a matcher that, given whether the current position is a line start
(for the multi-line `^` anchor) and the remaining suffix, returns the
length of the leftmost-first (Perl-style greedy) match at this position.
-/

/-- Unicode whitespace characters: the set matched by the regex class `\s`
in the `regex` crate, used by the patterns in `filter/misc.rs`. -/
def isWs (c : Char) : Bool :=
  c = ' ' || c = '\t' || c = '\n' || c = '\x0b' || c = '\x0c' || c = '\r' ||
  c = '\u0085' || c = '\u00A0' || c = '\u1680' ||
  ('\u2000' ≤ c && c ≤ '\u200A') ||
  c = '\u2028' || c = '\u2029' || c = '\u202F' || c = '\u205F' || c = '\u3000'

/-- Length of the maximal run of whitespace characters at the head of the list. -/
def wsRun : List Char → Nat
  | [] => 0
  | c :: cs => if isWs c then wsRun cs + 1 else 0

/-- Index of the last newline character in the list, if any. -/
def lastIdxNl : List Char → Option Nat
  | [] => none
  | c :: cs =>
    match lastIdxNl cs with
    | some i => some (i + 1)
    | none => if c = '\n' then some 0 else none

/-- A matcher: given line-start status and the remaining input, the length of
the match starting exactly here, if any. -/
def Matcher : Type := Bool → List Char → Option Nat

/-- Regex `\r\n` (DOS_NEWLINES in filter/misc.rs). -/
def mDOS : Matcher := fun _ s =>
  match s with
  | '\r' :: '\n' :: _ => some 2
  | _ => none

/-- Regex `\r` (MAC_NEWLINES in filter/misc.rs). -/
def mMAC : Matcher := fun _ s =>
  match s with
  | '\r' :: _ => some 1
  | _ => none

/-- Regex `\\\n` (CONCAT_BACKSLASHES in filter/misc.rs). -/
def mCONCAT : Matcher := fun _ s =>
  match s with
  | '\\' :: '\n' :: _ => some 2
  | _ => none

/-- Regex `\t` (TABS in filter/misc.rs). -/
def mTAB : Matcher := fun _ s =>
  match s with
  | '\t' :: _ => some 1
  | _ => none

/-- Multi-line regex `^\s+$` (WHITESPACE in filter/misc.rs).  At a line start,
the greedy match takes whitespace characters as long as the `$` anchor can
still be satisfied: the whole whitespace run when it reaches the end of the
input, otherwise up to the last newline inside the run (the match must have
length at least one). -/
def mWHITESPACE : Matcher := fun atLineStart s =>
  if atLineStart then
    if wsRun s = 0 then none
    else if wsRun s = s.length then some (wsRun s)
    else
      match lastIdxNl (s.take (wsRun s)) with
      | some k => if 1 ≤ k then some k else none
      | none => none
  else none

/-- Regex `(?:\n\s*){3,}` (COMPRESS_NEWLINES in filter/misc.rs).  A match
starts at a newline and greedily covers the whole whitespace run from there,
provided the run contains at least three newlines. -/
def mCOMPRESS : Matcher := fun _ s =>
  match s with
  | '\n' :: _ =>
    if 3 ≤ (s.take (wsRun s)).count '\n' then some (wsRun s) else none
  | _ => none

/-- Leftmost match search: scan positions left to right, tracking whether the
position is a line start (start of input or just after a newline), and return
the first position with its match length. -/
def findAux (m : Matcher) : Bool → List Char → Option (Nat × Nat)
  | _, [] => none
  | atStart, c :: cs =>
    match m atStart (c :: cs) with
    | some n => some (0, n)
    | none => (findAux m (c = '\n') cs).map (fun p => (p.1 + 1, p.2))

/-- Regex `find` on the whole input: leftmost match as (start index, length). -/
def find (m : Matcher) (x : List Char) : Option (Nat × Nat) :=
  findAux m true x

/-- One `text.replace_range(range, replacement)` step on the leftmost match. -/
def replaceStep (m : Matcher) (r : List Char) (x : List Char) : Option (List Char) :=
  (find m x).map (fun p => x.take p.1 ++ r ++ x.drop (p.1 + p.2))

/-- Fuelled version of the `while let Some(mtch) = regex.find(text)` loop of
`regex_replace` in filter/misc.rs. -/
def regexReplaceFuel (m : Matcher) (r : List Char) : Nat → List Char → List Char
  | 0, x => x
  | fuel + 1, x =>
    match replaceStep m r x with
    | none => x
    | some y => regexReplaceFuel m r fuel y

/-- regex_replace from filter/misc.rs: replace the leftmost match, repeatedly,
until no match remains.  The fuel `x.length + 1` is proved sufficient for each
of the six patterns used by `substitute` (each replacement step strictly
decreases a measure bounded by the length). -/
def regex_replace (m : Matcher) (r : List Char) (x : List Char) : List Char :=
  regexReplaceFuel m r (x.length + 1) x

/-- substitute from filter/misc.rs: the preprocessor normalization pass.
Applies, in order: DOS newlines, legacy Mac newlines, whitespace-only lines,
backslash-newline concatenation, tabs, newline compression. -/
def substitute (x : List Char) : List Char :=
  regex_replace mCOMPRESS ['\n', '\n']
    (regex_replace mTAB [' ', ' ', ' ', ' ']
      (regex_replace mCONCAT []
        (regex_replace mWHITESPACE []
          (regex_replace mMAC ['\n']
            (regex_replace mDOS ['\n'] x)))))

/-- Line-start status of position `i` when scanning begins with status `st`:
position 0 has the initial status, a later position is a line start exactly
when the previous character is a newline (the multi-line `^` anchor). -/
def lineStartAt (st : Bool) (x : List Char) : Nat → Bool
  | 0 => st
  | i + 1 => decide (x.get? i = some '\n')

theorem lineStartAt_cons (st : Bool) (c : Char) (cs : List Char) (i : Nat) :
    lineStartAt st (c :: cs) (i + 1) = lineStartAt (c = '\n') cs i := by
  cases i with
  | zero => simp [lineStartAt]
  | succ j => rfl

theorem findAux_some_sound (m : Matcher) (st : Bool) (x : List Char) (i n : Nat)
    (h : findAux m st x = some (i, n)) :
    m (lineStartAt st x i) (x.drop i) = some n ∧ i < x.length ∧
      (∀ j, j < i → m (lineStartAt st x j) (x.drop j) = none) := by
  induction x generalizing st i n with
  | nil => simp [findAux] at h
  | cons c cs ih =>
    rw [findAux] at h
    cases hm : m st (c :: cs) with
    | some n' =>
      rw [hm] at h
      simp only [Option.some.injEq, Prod.mk.injEq] at h
      obtain ⟨rfl, rfl⟩ := h
      refine ⟨hm, by simp, ?_⟩
      intro j hj; omega
    | none =>
      rw [hm] at h
      cases hf : findAux m (c = '\n') cs with
      | none => rw [hf] at h; simp at h
      | some p =>
        rw [hf] at h
        obtain ⟨i', n'⟩ := p
        simp only [Option.map_some', Option.some.injEq, Prod.mk.injEq] at h
        obtain ⟨rfl, rfl⟩ := h
        obtain ⟨h1, h2, h3⟩ := ih (c = '\n') i' n' hf
        refine ⟨?_, by simpa using h2, ?_⟩
        · rw [lineStartAt_cons]; exact h1
        · intro j hj
          cases j with
          | zero => exact hm
          | succ j' => rw [lineStartAt_cons]; simp only [List.drop_succ_cons]
                       exact h3 j' (by omega)

theorem findAux_none_sound (m : Matcher) (st : Bool) (x : List Char)
    (h : findAux m st x = none) (hnil : ∀ b, m b [] = none) :
    ∀ i, m (lineStartAt st x i) (x.drop i) = none := by
  induction x generalizing st with
  | nil => intro i; cases i <;> simp [lineStartAt, hnil]
  | cons c cs ih =>
    intro i
    rw [findAux] at h
    cases hm : m st (c :: cs) with
    | some n' => rw [hm] at h; simp at h
    | none =>
      rw [hm] at h
      cases i with
      | zero => exact hm
      | succ j =>
        rw [lineStartAt_cons]
        simp only [List.drop_succ_cons]
        cases hf : findAux m (c = '\n') cs with
        | none => exact ih (c = '\n') hf j
        | some p => rw [hf] at h; simp at h

theorem find_none_of_all (m : Matcher) (x : List Char)
    (h : ∀ i, m (lineStartAt true x i) (x.drop i) = none) :
    find m x = none := by
  rcases hf : find m x with _ | p
  · rfl
  · obtain ⟨i, n⟩ := p
    have := (findAux_some_sound m true x i n hf).1
    rw [h i] at this
    exact absurd this (by simp)

theorem regexReplaceFuel_inv (m : Matcher) (r : List Char) (P : List Char → Prop)
    (hstep : ∀ x y, replaceStep m r x = some y → P x → P y) :
    ∀ fuel x, P x → P (regexReplaceFuel m r fuel x) := by
  intro fuel
  induction fuel with
  | zero => intro x hx; exact hx
  | succ f ih =>
    intro x hx
    rw [regexReplaceFuel]
    rcases hs : replaceStep m r x with _ | y
    · exact hx
    · exact ih y (hstep x y hs hx)

theorem regexReplaceFuel_fixed (m : Matcher) (r : List Char) (μ : List Char → Nat)
    (hdec : ∀ x y, replaceStep m r x = some y → μ y < μ x) :
    ∀ fuel x, μ x < fuel → find m (regexReplaceFuel m r fuel x) = none := by
  intro fuel
  induction fuel with
  | zero => intro x hx; omega
  | succ f ih =>
    intro x hx
    rw [regexReplaceFuel]
    rcases hs : replaceStep m r x with _ | y
    · unfold replaceStep at hs
      exact Option.map_eq_none'.mp hs
    · exact ih y (by have := hdec x y hs; omega)

theorem regex_replace_id (m : Matcher) (r : List Char) (x : List Char)
    (h : find m x = none) : regex_replace m r x = x := by
  unfold regex_replace
  rw [regexReplaceFuel]
  simp [replaceStep, h]

theorem replaceStep_elim (m : Matcher) (r : List Char) (x y : List Char)
    (h : replaceStep m r x = some y) :
    ∃ i n, find m x = some (i, n) ∧ y = x.take i ++ r ++ x.drop (i + n) := by
  unfold replaceStep at h
  rcases hf : find m x with _ | p
  · rw [hf] at h; simp at h
  · obtain ⟨i, n⟩ := p
    rw [hf] at h
    simp only [Option.map_some', Option.some.injEq] at h
    exact ⟨i, n, rfl, h.symm⟩

theorem wsRun_le (s : List Char) : wsRun s ≤ s.length := by
  induction s with
  | nil => simp [wsRun]
  | cons c cs ih =>
    rw [wsRun]
    by_cases h : isWs c <;> simp [h] <;> omega

theorem lastIdxNl_some_lt (l : List Char) (k : Nat) (h : lastIdxNl l = some k) :
    k < l.length := by
  induction l generalizing k with
  | nil => simp [lastIdxNl] at h
  | cons c cs ih =>
    rw [lastIdxNl] at h
    cases hf : lastIdxNl cs with
    | some i => rw [hf] at h; simp at h; have := ih i hf; simp; omega
    | none =>
      rw [hf] at h
      by_cases hc : c = '\n' <;> simp [hc] at h <;> simp [← h]

theorem mDOS_nil (b : Bool) : mDOS b [] = none := rfl

theorem mMAC_nil (b : Bool) : mMAC b [] = none := rfl

theorem mCONCAT_nil (b : Bool) : mCONCAT b [] = none := rfl

theorem mTAB_nil (b : Bool) : mTAB b [] = none := rfl

theorem mWHITESPACE_nil (b : Bool) : mWHITESPACE b [] = none := by
  cases b <;> rfl

theorem mCOMPRESS_nil (b : Bool) : mCOMPRESS b [] = none := rfl

theorem mDOS_some (b : Bool) (s : List Char) (n : Nat) (h : mDOS b s = some n) :
    n = 2 ∧ ∃ t, s = '\r' :: '\n' :: t := by
  match s with
  | [] => simp [mDOS] at h
  | [c] => simp [mDOS] at h
  | c :: c' :: t =>
    by_cases h1 : c = '\r'
    · by_cases h2 : c' = '\n'
      · subst h1; subst h2; simp [mDOS] at h; exact ⟨h.symm, t, rfl⟩
      · subst h1; simp [mDOS, h2] at h
    · simp [mDOS, h1] at h

theorem mMAC_some (b : Bool) (s : List Char) (n : Nat) (h : mMAC b s = some n) :
    n = 1 ∧ ∃ t, s = '\r' :: t := by
  match s with
  | [] => simp [mMAC] at h
  | c :: t =>
    by_cases h1 : c = '\r'
    · subst h1; simp [mMAC] at h; exact ⟨h.symm, t, rfl⟩
    · simp [mMAC, h1] at h

theorem mCONCAT_some (b : Bool) (s : List Char) (n : Nat) (h : mCONCAT b s = some n) :
    n = 2 ∧ ∃ t, s = '\\' :: '\n' :: t := by
  match s with
  | [] => simp [mCONCAT] at h
  | [c] => simp [mCONCAT] at h
  | c :: c' :: t =>
    by_cases h1 : c = '\\'
    · by_cases h2 : c' = '\n'
      · subst h1; subst h2; simp [mCONCAT] at h; exact ⟨h.symm, t, rfl⟩
      · subst h1; simp [mCONCAT, h2] at h
    · simp [mCONCAT, h1] at h

theorem mTAB_some (b : Bool) (s : List Char) (n : Nat) (h : mTAB b s = some n) :
    n = 1 ∧ ∃ t, s = '\t' :: t := by
  match s with
  | [] => simp [mTAB] at h
  | c :: t =>
    by_cases h1 : c = '\t'
    · subst h1; simp [mTAB] at h; exact ⟨h.symm, t, rfl⟩
    · simp [mTAB, h1] at h

theorem mWHITESPACE_some (b : Bool) (s : List Char) (n : Nat)
    (h : mWHITESPACE b s = some n) :
    b = true ∧ 1 ≤ n ∧ n ≤ wsRun s ∧ wsRun s ≤ s.length := by
  unfold mWHITESPACE at h
  cases b with
  | false => simp at h
  | true =>
    simp only [if_true] at h
    refine ⟨rfl, ?_⟩
    by_cases h0 : wsRun s = 0
    · simp [h0] at h
    · simp only [h0, if_false] at h
      by_cases hl : wsRun s = s.length
      · simp only [hl, if_true, Option.some.injEq] at h
        have := wsRun_le s
        omega
      · simp only [hl, if_false] at h
        cases hk : lastIdxNl (s.take (wsRun s)) with
        | none => rw [hk] at h; simp at h
        | some k =>
          rw [hk] at h
          have hlt := lastIdxNl_some_lt _ _ hk
          rw [List.length_take] at hlt
          by_cases h1 : 1 ≤ k
          · simp only [h1, if_true, Option.some.injEq] at h
            subst h
            have := wsRun_le s
            constructor
            · omega
            · omega
          · simp [h1] at h

theorem mCOMPRESS_some (b : Bool) (s : List Char) (n : Nat)
    (h : mCOMPRESS b s = some n) :
    n = wsRun s ∧ 3 ≤ (s.take n).count '\n' ∧ s.head? = some '\n' ∧
      3 ≤ n ∧ n ≤ s.length := by
  match s with
  | [] => simp [mCOMPRESS] at h
  | c :: t =>
    by_cases h1 : c = '\n'
    · subst h1
      simp only [mCOMPRESS] at h
      by_cases h3 : 3 ≤ (('\n' :: t).take (wsRun ('\n' :: t))).count '\n'
      · simp only [h3, if_true, Option.some.injEq] at h
        subst h
        refine ⟨rfl, h3, rfl, ?_, wsRun_le _⟩
        calc 3 ≤ (('\n' :: t).take (wsRun ('\n' :: t))).count '\n' := h3
          _ ≤ (('\n' :: t).take (wsRun ('\n' :: t))).length := List.count_le_length _ _
          _ ≤ wsRun ('\n' :: t) := by rw [List.length_take]; omega
      · simp [h3] at h
    · simp [mCOMPRESS, h1] at h

theorem replaceStep_parts (m : Matcher) (r : List Char) (x y : List Char)
    (h : replaceStep m r x = some y)
    (hub : ∀ b s n, m b s = some n → n ≤ s.length) :
    ∃ i n, i < x.length ∧ i + n ≤ x.length ∧
      m (lineStartAt true x i) (x.drop i) = some n ∧
      y = x.take i ++ r ++ x.drop (i + n) ∧
      y.length + n = x.length + r.length := by
  obtain ⟨i, n, hf, hy⟩ := replaceStep_elim m r x y h
  obtain ⟨hm, hi, -⟩ := findAux_some_sound m true x i n hf
  have hn : n ≤ x.length - i := by
    have := hub _ _ _ hm
    rwa [List.length_drop] at this
  refine ⟨i, n, hi, by omega, hm, hy, ?_⟩
  subst hy
  simp only [List.length_append, List.length_take, List.length_drop]
  omega

theorem mDOS_ub (b : Bool) (s : List Char) (n : Nat) (h : mDOS b s = some n) :
    n ≤ s.length := by
  obtain ⟨rfl, t, rfl⟩ := mDOS_some b s n h; simp

theorem mMAC_ub (b : Bool) (s : List Char) (n : Nat) (h : mMAC b s = some n) :
    n ≤ s.length := by
  obtain ⟨rfl, t, rfl⟩ := mMAC_some b s n h; simp

theorem mCONCAT_ub (b : Bool) (s : List Char) (n : Nat) (h : mCONCAT b s = some n) :
    n ≤ s.length := by
  obtain ⟨rfl, t, rfl⟩ := mCONCAT_some b s n h; simp

theorem mTAB_ub (b : Bool) (s : List Char) (n : Nat) (h : mTAB b s = some n) :
    n ≤ s.length := by
  obtain ⟨rfl, t, rfl⟩ := mTAB_some b s n h; simp

theorem mWHITESPACE_ub (b : Bool) (s : List Char) (n : Nat)
    (h : mWHITESPACE b s = some n) : n ≤ s.length := by
  obtain ⟨-, -, h1, h2⟩ := mWHITESPACE_some b s n h; omega

theorem mCOMPRESS_ub (b : Bool) (s : List Char) (n : Nat)
    (h : mCOMPRESS b s = some n) : n ≤ s.length := by
  exact (mCOMPRESS_some b s n h).2.2.2.2

theorem step_mDOS_len (x y : List Char) (h : replaceStep mDOS ['\n'] x = some y) :
    y.length < x.length := by
  obtain ⟨i, n, hi, hin, hm, hy, hlen⟩ := replaceStep_parts mDOS ['\n'] x y h mDOS_ub
  obtain ⟨rfl, t, ht⟩ := mDOS_some _ _ _ hm
  simp at hlen
  omega

theorem step_mMAC_count (x y : List Char) (h : replaceStep mMAC ['\n'] x = some y) :
    y.count '\r' < x.count '\r' := by
  obtain ⟨i, n, hi, hin, hm, hy, -⟩ := replaceStep_parts mMAC ['\n'] x y h mMAC_ub
  obtain ⟨rfl, t, ht⟩ := mMAC_some _ _ _ hm
  have hdrop : x.drop (i + 1) = t := by
    have h2 := congrArg (List.drop 1) ht
    rw [List.drop_drop] at h2
    simpa [Nat.add_comm] using h2
  have hx : x = x.take i ++ '\r' :: t := by
    conv_lhs => rw [← List.take_append_drop i x]
    rw [ht]
  subst hy
  rw [hdrop]
  conv_rhs => rw [hx]
  simp [List.count_append, List.count_cons]

theorem step_mWHITESPACE_len (x y : List Char)
    (h : replaceStep mWHITESPACE [] x = some y) : y.length < x.length := by
  obtain ⟨i, n, hi, hin, hm, hy, hlen⟩ :=
    replaceStep_parts mWHITESPACE [] x y h mWHITESPACE_ub
  obtain ⟨-, h1, -, -⟩ := mWHITESPACE_some _ _ _ hm
  simp at hlen
  omega

theorem step_mCONCAT_len (x y : List Char) (h : replaceStep mCONCAT [] x = some y) :
    y.length < x.length := by
  obtain ⟨i, n, hi, hin, hm, hy, hlen⟩ := replaceStep_parts mCONCAT [] x y h mCONCAT_ub
  obtain ⟨rfl, t, ht⟩ := mCONCAT_some _ _ _ hm
  simp at hlen
  omega

theorem step_mTAB_count (x y : List Char)
    (h : replaceStep mTAB [' ', ' ', ' ', ' '] x = some y) :
    y.count '\t' < x.count '\t' := by
  obtain ⟨i, n, hi, hin, hm, hy, -⟩ := replaceStep_parts mTAB _ x y h mTAB_ub
  obtain ⟨rfl, t, ht⟩ := mTAB_some _ _ _ hm
  have hdrop : x.drop (i + 1) = t := by
    have h2 := congrArg (List.drop 1) ht
    rw [List.drop_drop] at h2
    simpa [Nat.add_comm] using h2
  have hx : x = x.take i ++ '\t' :: t := by
    conv_lhs => rw [← List.take_append_drop i x]
    rw [ht]
  subst hy
  rw [hdrop]
  conv_rhs => rw [hx]
  simp [List.count_append, List.count_cons]

theorem step_mCOMPRESS_len (x y : List Char)
    (h : replaceStep mCOMPRESS ['\n', '\n'] x = some y) : y.length < x.length := by
  obtain ⟨i, n, hi, hin, hm, hy, hlen⟩ :=
    replaceStep_parts mCOMPRESS _ x y h mCOMPRESS_ub
  obtain ⟨-, -, -, h3, -⟩ := mCOMPRESS_some _ _ _ hm
  simp at hlen
  omega

theorem find_none_after_mDOS (x : List Char) :
    find mDOS (regex_replace mDOS ['\n'] x) = none :=
  regexReplaceFuel_fixed mDOS ['\n'] List.length step_mDOS_len _ x (by omega)

theorem find_none_after_mMAC (x : List Char) :
    find mMAC (regex_replace mMAC ['\n'] x) = none :=
  regexReplaceFuel_fixed mMAC ['\n'] (fun l => l.count '\r') step_mMAC_count _ x
    (by show List.count '\r' x < x.length + 1
        have := List.count_le_length '\r' x
        omega)

theorem find_none_after_mWHITESPACE (x : List Char) :
    find mWHITESPACE (regex_replace mWHITESPACE [] x) = none :=
  regexReplaceFuel_fixed mWHITESPACE [] List.length step_mWHITESPACE_len _ x (by omega)

theorem find_none_after_mCONCAT (x : List Char) :
    find mCONCAT (regex_replace mCONCAT [] x) = none :=
  regexReplaceFuel_fixed mCONCAT [] List.length step_mCONCAT_len _ x (by omega)

theorem find_none_after_mTAB (x : List Char) :
    find mTAB (regex_replace mTAB [' ', ' ', ' ', ' '] x) = none :=
  regexReplaceFuel_fixed mTAB _ (fun l => l.count '\t') step_mTAB_count _ x
    (by show List.count '\t' x < x.length + 1
        have := List.count_le_length '\t' x
        omega)

theorem find_none_after_mCOMPRESS (x : List Char) :
    find mCOMPRESS (regex_replace mCOMPRESS ['\n', '\n'] x) = none :=
  regexReplaceFuel_fixed mCOMPRESS _ List.length step_mCOMPRESS_len _ x (by omega)

theorem drop_of_get? (x : List Char) (i : Nat) (c : Char) (h : x.get? i = some c) :
    ∃ t, x.drop i = c :: t := by
  obtain ⟨hlt, hget⟩ := List.get?_eq_some.mp h
  refine ⟨x.drop (i + 1), ?_⟩
  rw [List.drop_eq_get_cons hlt, hget]

theorem find_mMAC_none_noCR (x : List Char) (h : find mMAC x = none) : '\r' ∉ x := by
  intro hmem
  obtain ⟨j, hj⟩ := List.mem_iff_get.mp hmem
  have hq : x.get? (j : Nat) = some '\r' := by rw [List.get?_eq_get j.isLt, hj]
  obtain ⟨t, ht⟩ := drop_of_get? x j '\r' hq
  have hnone := findAux_none_sound mMAC true x h mMAC_nil j
  rw [ht] at hnone
  simp [mMAC] at hnone

theorem find_mTAB_none_noTab (x : List Char) (h : find mTAB x = none) : '\t' ∉ x := by
  intro hmem
  obtain ⟨j, hj⟩ := List.mem_iff_get.mp hmem
  have hq : x.get? (j : Nat) = some '\t' := by rw [List.get?_eq_get j.isLt, hj]
  obtain ⟨t, ht⟩ := drop_of_get? x j '\t' hq
  have hnone := findAux_none_sound mTAB true x h mTAB_nil j
  rw [ht] at hnone
  simp [mTAB] at hnone

/-- Test whether the string contains a backslash immediately followed by a
newline (the `\\\n` pattern of CONCAT_BACKSLASHES). -/
def hasBackslashNl : List Char → Bool
  | [] => false
  | [_] => false
  | c :: c' :: cs => (c = '\\' && c' = '\n') || hasBackslashNl (c' :: cs)

theorem hasBackslashNl_cons (c : Char) (t : List Char) :
    hasBackslashNl (c :: t) =
      ((c = '\\' && t.head? = some '\n') || hasBackslashNl t) := by
  cases t with
  | nil => simp [hasBackslashNl]
  | cons d t' => simp [hasBackslashNl]

theorem hasBackslashNl_append (u v : List Char) :
    hasBackslashNl (u ++ v) =
      (hasBackslashNl u ||
        (decide (u.getLast? = some '\\') && decide (v.head? = some '\n')) ||
        hasBackslashNl v) := by
  induction u with
  | nil => simp [hasBackslashNl]
  | cons c u' ih =>
    cases u' with
    | nil =>
      simp only [List.singleton_append, hasBackslashNl_cons, hasBackslashNl]
      cases v with
      | nil => simp
      | cons d v' => simp [List.getLast?_singleton]
    | cons c' u'' =>
      simp only [List.cons_append, hasBackslashNl, List.append_eq] at *
      rw [ih, List.getLast?_cons_cons]
      simp only [Bool.or_assoc]

theorem find_mCONCAT_none_noBN (x : List Char) (h : find mCONCAT x = none) :
    hasBackslashNl x = false := by
  unfold find at h
  revert h
  generalize true = st
  induction x generalizing st with
  | nil => intro h; rfl
  | cons c cs ih =>
    intro h
    rw [findAux] at h
    cases hm : mCONCAT st (c :: cs) with
    | some n' => rw [hm] at h; simp at h
    | none =>
      rw [hm] at h
      cases hf : findAux mCONCAT (c = '\n') cs with
      | some p => rw [hf] at h; simp at h
      | none =>
        rw [hasBackslashNl_cons]
        have h2 := ih (c = '\n') hf
        rw [h2]
        cases cs with
        | nil => simp
        | cons d cs' =>
          by_cases hc : c = '\\'
          · by_cases hd : d = '\n'
            · subst hc; subst hd; simp [mCONCAT] at hm
            · simp [hc, hd]
          · simp [hc]

theorem step_not_mem (m : Matcher) (r : List Char) (c : Char) (x y : List Char)
    (h : replaceStep m r x = some y) (hc : c ∉ r) (hx : c ∉ x) : c ∉ y := by
  obtain ⟨i, n, -, hy⟩ := replaceStep_elim m r x y h
  subst hy
  intro hmem
  rcases List.mem_append.mp hmem with h1 | h2
  · rcases List.mem_append.mp h1 with h3 | h4
    · exact hx (List.take_subset i x h3)
    · exact hc h4
  · exact hx (List.drop_subset _ x h2)

theorem regex_replace_not_mem (m : Matcher) (r : List Char) (c : Char)
    (hc : c ∉ r) (x : List Char) (hx : c ∉ x) : c ∉ regex_replace m r x :=
  regexReplaceFuel_inv m r (fun l => c ∉ l)
    (fun a b hab h => step_not_mem m r c a b hab hc h) _ x hx

theorem step_mTAB_noBN (x y : List Char)
    (h : replaceStep mTAB [' ', ' ', ' ', ' '] x = some y)
    (hx : hasBackslashNl x = false) : hasBackslashNl y = false := by
  obtain ⟨i, n, hi, hin, hm, hy, -⟩ := replaceStep_parts mTAB _ x y h mTAB_ub
  obtain ⟨rfl, t, ht⟩ := mTAB_some _ _ _ hm
  have hdrop : x.drop (i + 1) = t := by
    have h2 := congrArg (List.drop 1) ht
    rw [List.drop_drop] at h2
    simpa [Nat.add_comm] using h2
  have hx2 : x = x.take i ++ '\t' :: t := by
    conv_lhs => rw [← List.take_append_drop i x]
    rw [ht]
  rw [hx2, hasBackslashNl_append, hasBackslashNl_cons] at hx
  simp only [Bool.or_eq_false_iff, Bool.and_eq_false_iff] at hx
  subst hy
  rw [hdrop, List.append_assoc, hasBackslashNl_append, hasBackslashNl_append]
  have hHead : (([' ', ' ', ' ', ' '] ++ t : List Char)).head? = some ' ' := rfl
  have hLast : ([' ', ' ', ' ', ' '] : List Char).getLast? = some ' ' := rfl
  rw [hHead, hLast]
  simp only [Bool.or_eq_false_iff, Bool.and_eq_false_iff]
  refine ⟨⟨hx.1.1, Or.inr (by decide)⟩, ⟨by decide, Or.inl (by decide)⟩, hx.2.2⟩

theorem step_mCOMPRESS_noBN (x y : List Char)
    (h : replaceStep mCOMPRESS ['\n', '\n'] x = some y)
    (hx : hasBackslashNl x = false) : hasBackslashNl y = false := by
  obtain ⟨i, n, hi, hin, hm, hy, -⟩ := replaceStep_parts mCOMPRESS _ x y h mCOMPRESS_ub
  obtain ⟨-, -, hhead, -, -⟩ := mCOMPRESS_some _ _ _ hm
  have hdropn : x.drop (i + n) = (x.drop i).drop n := by
    rw [List.drop_drop, Nat.add_comm]
  have hx' : hasBackslashNl (x.take i ++ x.drop i) = false := by
    rw [List.take_append_drop]; exact hx
  rw [hasBackslashNl_append] at hx'
  simp only [Bool.or_eq_false_iff, Bool.and_eq_false_iff] at hx'
  obtain ⟨⟨hxa, hstr⟩, hxs⟩ := hx'
  have hxs' : hasBackslashNl ((x.drop i).take n ++ (x.drop i).drop n) = false := by
    rw [List.take_append_drop]; exact hxs
  rw [hasBackslashNl_append] at hxs'
  simp only [Bool.or_eq_false_iff, Bool.and_eq_false_iff] at hxs'
  have hb : hasBackslashNl ((x.drop i).drop n) = false := hxs'.2
  have hlast_a : decide ((x.take i).getLast? = some '\\') = false := by
    rcases hstr with h1 | h1
    · exact h1
    · rw [hhead] at h1; simp at h1
  subst hy
  rw [hdropn, List.append_assoc, hasBackslashNl_append]
  have hcons : (['\n', '\n'] ++ (x.drop i).drop n : List Char) =
      '\n' :: '\n' :: (x.drop i).drop n := rfl
  rw [hcons, hasBackslashNl_cons, hasBackslashNl_cons]
  simp only [List.head?_cons]
  have hb' : hasBackslashNl (x.drop (i + n)) = false := by rw [hdropn]; exact hb
  simp [hxa, hb, hb', hlast_a]

theorem wsRun_ge (u : List Char) (k : Nat) (hk : k ≤ u.length)
    (hws : ∀ c ∈ u.take k, isWs c = true) : k ≤ wsRun u := by
  induction u generalizing k with
  | nil => simp at hk; omega
  | cons c t ih =>
    cases k with
    | zero => omega
    | succ k' =>
      rw [wsRun]
      have hc : isWs c = true := hws c (by simp)
      rw [hc, if_pos rfl]
      have := ih k' (by simp at hk; omega)
        (fun d hd => hws d (by simp; right; exact hd))
      omega

theorem count_take_mono (u : List Char) (a : Char) (j r : Nat) (h : j ≤ r) :
    (u.take j).count a ≤ (u.take r).count a := by
  have hsplit : u.take r = (u.take r).take j ++ (u.take r).drop j :=
    (List.take_append_drop j (u.take r)).symm
  have hjj : (u.take r).take j = u.take j := by
    rw [List.take_take, Nat.min_eq_left h]
  calc (u.take j).count a = ((u.take r).take j).count a := by rw [hjj]
    _ ≤ (u.take r).count a := by
        conv_rhs => rw [hsplit]
        rw [List.count_append]
        omega

theorem take_length_take (u : List Char) (len : Nat) :
    u.take ((u.take len).length) = u.take len := by
  rw [List.length_take]
  rcases Nat.le_total len u.length with h | h
  · rw [Nat.min_eq_left h]
  · rw [Nat.min_eq_right h, List.take_length, List.take_of_length_le h]

/-- Property stated by the spec: the string contains a whitespace-only segment
that starts with a newline and contains three or more newlines (a run of 3+
newlines allowing interior whitespace). -/
def specNewlineRun3 (s : List Char) : Prop :=
  ∃ i len, ((s.drop i).take len).head? = some '\n' ∧
    (∀ c ∈ (s.drop i).take len, isWs c = true) ∧
    3 ≤ ((s.drop i).take len).count '\n'

theorem find_mCOMPRESS_none_noRun (x : List Char) (h : find mCOMPRESS x = none) :
    ¬ specNewlineRun3 x := by
  rintro ⟨i, len, hhead, hws, hcount⟩
  have hnone := findAux_none_sound mCOMPRESS true x h mCOMPRESS_nil i
  obtain ⟨t, hut⟩ : ∃ t, x.drop i = '\n' :: t := by
    cases hu : x.drop i with
    | nil => rw [hu] at hhead; simp at hhead
    | cons c t =>
      rw [hu] at hhead
      cases len with
      | zero => simp at hhead
      | succ l => simp at hhead; exact ⟨t, by rw [hhead]⟩
  rw [hut] at hnone
  have hcond : ¬ 3 ≤ ((('\n' :: t).take (wsRun ('\n' :: t))).count '\n') := by
    intro hc
    rw [show mCOMPRESS (lineStartAt true x i) ('\n' :: t) =
      (if 3 ≤ ((('\n' :: t).take (wsRun ('\n' :: t))).count '\n') then
        some (wsRun ('\n' :: t)) else none) from rfl, if_pos hc] at hnone
    exact absurd hnone (by simp)
  apply hcond
  rw [← hut]
  have hsl : ((x.drop i).take len).length ≤ (x.drop i).length := by
    rw [List.length_take]; omega
  have hws' : ∀ c ∈ (x.drop i).take (((x.drop i).take len).length), isWs c = true := by
    rw [take_length_take]; exact hws
  have h1 : ((x.drop i).take len).length ≤ wsRun (x.drop i) :=
    wsRun_ge (x.drop i) _ hsl hws'
  have h2 : 3 ≤ ((x.drop i).take (((x.drop i).take len).length)).count '\n' := by
    rw [take_length_take]; exact hcount
  have h3 := count_take_mono (x.drop i) '\n' (((x.drop i).take len).length)
    (wsRun (x.drop i)) h1
  omega

theorem regex_replace_inv (m : Matcher) (r : List Char) (P : List Char → Prop)
    (hstep : ∀ x y, replaceStep m r x = some y → P x → P y)
    (x : List Char) (hx : P x) : P (regex_replace m r x) :=
  regexReplaceFuel_inv m r P hstep _ x hx

/-- C5: the preprocessor applies the six substitutions in order (DOS newlines,
Mac newlines, whitespace-only lines, backslash-newline removal, tab expansion,
newline compression — this order is the definition of `substitute`), each
repeated to a fixed point before the next (the six universal conjuncts), and on
the two concrete spec inputs it produces exactly the expected outputs. -/
theorem c5_preprocessor_concrete :
    substitute ("\tapple\n\tbanana\tcherry\n".data) =
      ("    apple\n    banana    cherry\n".data) ∧
    substitute ("a\n\n\n\nb".data) = ("a\n\nb".data) ∧
    (∀ y, find mDOS (regex_replace mDOS ['\n'] y) = none) ∧
    (∀ y, find mMAC (regex_replace mMAC ['\n'] y) = none) ∧
    (∀ y, find mWHITESPACE (regex_replace mWHITESPACE [] y) = none) ∧
    (∀ y, find mCONCAT (regex_replace mCONCAT [] y) = none) ∧
    (∀ y, find mTAB (regex_replace mTAB [' ', ' ', ' ', ' '] y) = none) ∧
    (∀ y, find mCOMPRESS (regex_replace mCOMPRESS ['\n', '\n'] y) = none) :=
  ⟨by decide, by decide, find_none_after_mDOS, find_none_after_mMAC,
    find_none_after_mWHITESPACE, find_none_after_mCONCAT,
    find_none_after_mTAB, find_none_after_mCOMPRESS⟩

/-- C6: for every input, the preprocessor's output contains no carriage return,
no tab, no backslash immediately followed by a newline, and no whitespace run
beginning with a newline that contains three or more newlines. -/
theorem c6_preprocessor_fixed_points (x : List Char) :
    '\r' ∉ substitute x ∧ '\t' ∉ substitute x ∧
    hasBackslashNl (substitute x) = false ∧ ¬ specNewlineRun3 (substitute x) := by
  unfold substitute
  refine ⟨?_, ?_, ?_, ?_⟩
  · apply regex_replace_not_mem _ _ _ (by decide)
    apply regex_replace_not_mem _ _ _ (by decide)
    apply regex_replace_not_mem _ _ _ (by decide)
    apply regex_replace_not_mem _ _ _ (by decide)
    exact find_mMAC_none_noCR _ (find_none_after_mMAC _)
  · apply regex_replace_not_mem _ _ _ (by decide)
    exact find_mTAB_none_noTab _ (find_none_after_mTAB _)
  · apply regex_replace_inv mCOMPRESS _ (fun l => hasBackslashNl l = false)
      step_mCOMPRESS_noBN
    apply regex_replace_inv mTAB _ (fun l => hasBackslashNl l = false)
      step_mTAB_noBN
    exact find_mCONCAT_none_noBN _ (find_none_after_mCONCAT _)
  · exact find_mCOMPRESS_none_noRun _ (find_none_after_mCOMPRESS _)

theorem mWHITESPACE_false (s : List Char) : mWHITESPACE false s = none := rfl

theorem lastIdxNl_none_no (l : List Char) (h : lastIdxNl l = none) :
    ∀ k, l.get? k ≠ some '\n' := by
  induction l with
  | nil => intro k; simp
  | cons c cs ih =>
    rw [lastIdxNl] at h
    cases hf : lastIdxNl cs with
    | some i => rw [hf] at h; simp at h
    | none =>
      rw [hf] at h
      intro k
      cases k with
      | zero =>
        by_cases hc : c = '\n'
        · simp [hc] at h
        · simpa using hc
      | succ k' => simpa using ih hf k'

theorem lastIdxNl_some_get (l : List Char) (k : Nat) (h : lastIdxNl l = some k) :
    l.get? k = some '\n' := by
  induction l generalizing k with
  | nil => simp [lastIdxNl] at h
  | cons c cs ih =>
    rw [lastIdxNl] at h
    cases hf : lastIdxNl cs with
    | some i =>
      rw [hf] at h
      simp only [Option.some.injEq] at h
      subst h
      simpa using ih i hf
    | none =>
      rw [hf] at h
      by_cases hc : c = '\n'
      · simp [hc] at h; subst h; simpa using hc
      · simp [hc] at h

theorem lastIdxNl_some_max (l : List Char) (k : Nat) (h : lastIdxNl l = some k) :
    ∀ j, l.get? j = some '\n' → j ≤ k := by
  induction l generalizing k with
  | nil => intro j hj; simp at hj
  | cons c cs ih =>
    rw [lastIdxNl] at h
    cases hf : lastIdxNl cs with
    | some i =>
      rw [hf] at h
      simp only [Option.some.injEq] at h
      subst h
      intro j hj
      cases j with
      | zero => omega
      | succ j' =>
        simp only [List.get?_cons_succ] at hj
        have := ih i hf j' hj
        omega
    | none =>
      rw [hf] at h
      by_cases hc : c = '\n'
      · simp [hc] at h
        subst h
        intro j hj
        cases j with
        | zero => omega
        | succ j' =>
          simp only [List.get?_cons_succ] at hj
          exact absurd hj (lastIdxNl_none_no cs hf j')
      · simp [hc] at h

theorem mWS_none_iff (u : List Char) :
    mWHITESPACE true u = none ↔
      wsRun u = 0 ∨
        (wsRun u < u.length ∧ ∀ k, 1 ≤ k → k < wsRun u → u.get? k ≠ some '\n') := by
  unfold mWHITESPACE
  simp only [if_true]
  by_cases h0 : wsRun u = 0
  · simp [h0]
  · rw [if_neg h0]
    by_cases hl : wsRun u = u.length
    · rw [if_pos hl]
      constructor
      · intro h; simp at h
      · rintro (h | ⟨h, -⟩)
        · omega
        · omega
    · rw [if_neg hl]
      have hlt : wsRun u < u.length := lt_of_le_of_ne (wsRun_le u) hl
      cases hf : lastIdxNl (u.take (wsRun u)) with
      | none =>
        simp only [true_iff]
        right
        refine ⟨hlt, fun k hk1 hk2 hkn => ?_⟩
        have : (u.take (wsRun u)).get? k = some '\n' := by
          rw [List.get?_take hk2]; exact hkn
        exact lastIdxNl_none_no _ hf k this
      | some k0 =>
        show (if 1 ≤ k0 then some k0 else none) = none ↔
          wsRun u = 0 ∨
            (wsRun u < u.length ∧ ∀ k, 1 ≤ k → k < wsRun u → u.get? k ≠ some '\n')
        by_cases hk1 : 1 ≤ k0
        · rw [if_pos hk1]
          constructor
          · intro h; simp at h
          · rintro (h | ⟨-, hno⟩)
            · omega
            · exfalso
              have hg := lastIdxNl_some_get _ _ hf
              have hk0lt : k0 < wsRun u := by
                have := lastIdxNl_some_lt _ _ hf
                rw [List.length_take] at this
                omega
              rw [List.get?_take hk0lt] at hg
              exact hno k0 hk1 hk0lt hg
        · rw [if_neg hk1]
          simp only [true_iff]
          right
          refine ⟨hlt, fun k hk hklt hkn => ?_⟩
          have : (u.take (wsRun u)).get? k = some '\n' := by
            rw [List.get?_take hklt]; exact hkn
          have := lastIdxNl_some_max _ _ hf k this
          omega

theorem wsRun_append_lt (p q : List Char) (h : wsRun p < p.length) :
    wsRun (p ++ q) = wsRun p := by
  induction p with
  | nil => simp [wsRun] at h
  | cons c p' ih =>
    rw [List.cons_append, wsRun, wsRun]
    by_cases hc : isWs c
    · rw [hc, if_pos rfl, if_pos rfl]
      rw [wsRun, hc, if_pos rfl] at h
      simp only [List.length_cons] at h
      rw [ih (by omega)]
    · simp [hc]

theorem wsRun_append_all (p q : List Char) (h : wsRun p = p.length) :
    wsRun (p ++ q) = p.length + wsRun q := by
  induction p with
  | nil => simp
  | cons c p' ih =>
    rw [List.cons_append, wsRun]
    rw [wsRun] at h
    by_cases hc : isWs c
    · rw [hc, if_pos rfl]
      rw [hc, if_pos rfl] at h
      simp only [List.length_cons] at h ⊢
      rw [ih (by omega)]
      omega
    · rw [if_neg (by simpa using hc)] at h
      simp only [List.length_cons] at h
      omega

theorem mWS_congr (p A B : List Char) (h : wsRun p < p.length) :
    mWHITESPACE true (p ++ A) = mWHITESPACE true (p ++ B) := by
  have hA := wsRun_append_lt p A h
  have hB := wsRun_append_lt p B h
  have hlenA : p.length ≤ (p ++ A).length := by simp
  have hlenB : p.length ≤ (p ++ B).length := by simp
  have htA : (p ++ A).take (wsRun (p ++ A)) = p.take (wsRun p) := by
    rw [hA]; exact List.take_append_of_le_length (le_of_lt h)
  have htB : (p ++ B).take (wsRun (p ++ B)) = p.take (wsRun p) := by
    rw [hB]; exact List.take_append_of_le_length (le_of_lt h)
  unfold mWHITESPACE
  simp only [if_true]
  have hneA : ¬ wsRun p = (p ++ A).length := by omega
  have hneB : ¬ wsRun p = (p ++ B).length := by omega
  rw [htA, htB, hA, hB, if_neg hneA, if_neg hneB]

theorem wsRun_cons_ws (c : Char) (t : List Char) (hc : isWs c = true) :
    wsRun (c :: t) = wsRun t + 1 := by
  rw [wsRun, hc, if_pos rfl]

theorem wsRun_cons_not (c : Char) (t : List Char) (hc : isWs c = false) :
    wsRun (c :: t) = 0 := by
  rw [wsRun, hc]
  simp

theorem wsRun_stop (u : List Char) (h : wsRun u < u.length) :
    ∃ c, u.get? (wsRun u) = some c ∧ isWs c = false := by
  induction u with
  | nil => simp at h
  | cons c t ih =>
    by_cases hc : isWs c
    · rw [wsRun_cons_ws c t hc] at h ⊢
      simp only [List.length_cons] at h
      obtain ⟨d, hd1, hd2⟩ := ih (by omega)
      exact ⟨d, by simpa using hd1, hd2⟩
    · rw [wsRun_cons_not c t (by simpa using hc)]
      exact ⟨c, by simp, by simpa using hc⟩

theorem exists_second_count (l : List Char) (a : Char) (h : 2 ≤ l.count a) :
    ∃ k, 1 ≤ k ∧ l.get? k = some a := by
  cases l with
  | nil => simp at h
  | cons c t =>
    rw [List.count_cons] at h
    have ht : 1 ≤ t.count a := by
      by_cases hca : c = a
      · simp only [hca, beq_self_eq_true, if_true] at h
        omega
      · simp only [beq_iff_eq, hca, if_false] at h
        omega
    have h0 : 0 < t.count a := by omega
    have hmem : a ∈ t := List.count_pos_iff_mem.mp h0
    obtain ⟨j, hj⟩ := List.mem_iff_get.mp hmem
    refine ⟨j + 1, by omega, ?_⟩
    simp only [List.get?_cons_succ]
    rw [List.get?_eq_get j.isLt, hj]

theorem ws_all_take_wsRun (u : List Char) :
    ∀ c ∈ u.take (wsRun u), isWs c = true := by
  induction u with
  | nil => simp
  | cons c t ih =>
    by_cases hc : isWs c
    · rw [wsRun_cons_ws c t hc]
      intro d hd
      rw [List.take_succ_cons] at hd
      rcases List.mem_cons.mp hd with rfl | hd'
      · exact hc
      · exact ih d hd'
    · rw [wsRun_cons_not c t (by simpa using hc)]
      simp

theorem lineStartAt_succ (st : Bool) (x : List Char) (k : Nat) :
    lineStartAt st x (k + 1) = decide (x.get? k = some '\n') := rfl

theorem step_mTAB_WSfree (x y : List Char)
    (h : replaceStep mTAB [' ', ' ', ' ', ' '] x = some y)
    (hx : find mWHITESPACE x = none) : find mWHITESPACE y = none := by
  obtain ⟨i, n, hi, hin, hm, hy, -⟩ := replaceStep_parts mTAB _ x y h mTAB_ub
  obtain ⟨rfl, t, ht⟩ := mTAB_some _ _ _ hm
  have hdrop : x.drop (i + 1) = t := by
    have h2 := congrArg (List.drop 1) ht
    rw [List.drop_drop] at h2
    simpa [Nat.add_comm] using h2
  have hlen_a : (x.take i).length = i := by rw [List.length_take]; omega
  have hlen_asp : (x.take i ++ [' ', ' ', ' ', ' ']).length = i + 4 := by
    simp [hlen_a]
  have hx2 : x = x.take i ++ '\t' :: t := by
    conv_lhs => rw [← List.take_append_drop i x]
    rw [ht]
  have hall := findAux_none_sound mWHITESPACE true x hx mWHITESPACE_nil
  have h4 : ∀ m, m < 4 → ([' ', ' ', ' ', ' '] : List Char).get? m = some ' ' := by
    decide
  subst hy
  rw [hdrop]
  apply find_none_of_all
  intro j
  by_cases hls : lineStartAt true (x.take i ++ [' ', ' ', ' ', ' '] ++ t) j = true
  case neg =>
    rw [Bool.not_eq_true] at hls
    rw [hls]
    exact mWHITESPACE_false _
  case pos =>
  rw [hls]
  by_cases hji : j ≤ i
  · -- position inside the unchanged prefix
    have hlseq : lineStartAt true x j = true := by
      cases j with
      | zero => rfl
      | succ k =>
        have hk : k < i := by omega
        rw [lineStartAt_succ] at hls ⊢
        have hyk : (x.take i ++ [' ', ' ', ' ', ' '] ++ t).get? k = (x.take i).get? k := by
          rw [List.get?_append (by omega), List.get?_append (by omega)]
        have hxk : x.get? k = (x.take i).get? k := (List.get?_take hk).symm
        rw [hxk, ← hyk]
        exact hls
    have hnone := hall j
    rw [hlseq] at hnone
    have hxdropj : x.drop j = (x.take i).drop j ++ '\t' :: t := by
      conv_lhs => rw [hx2]
      rw [List.drop_append_of_le_length (by omega)]
    rw [hxdropj] at hnone
    rw [List.append_assoc, List.drop_append_of_le_length (by omega)]
    set p := (x.take i).drop j with hp
    by_cases hws : wsRun p < p.length
    · rw [mWS_congr p ([' ', ' ', ' ', ' '] ++ t) ('\t' :: t) hws]
      exact hnone
    · have hwsall : wsRun p = p.length := le_antisymm (wsRun_le p) (not_lt.mp hws)
      have htabt : wsRun ('\t' :: t) = wsRun t + 1 := wsRun_cons_ws _ _ (by decide)
      have hsp : wsRun ([' ', ' ', ' ', ' '] ++ t) = 4 + wsRun t := by
        simpa using wsRun_append_all [' ', ' ', ' ', ' '] t (by decide)
      have hup : wsRun (p ++ '\t' :: t) = p.length + (wsRun t + 1) := by
        rw [wsRun_append_all p _ hwsall, htabt]
      have hup' : wsRun (p ++ ([' ', ' ', ' ', ' '] ++ t)) = p.length + (4 + wsRun t) := by
        rw [wsRun_append_all p _ hwsall, hsp]
      have hwt := wsRun_le t
      rw [mWS_none_iff] at hnone
      rcases hnone with h0 | ⟨hlt, hno⟩
      · rw [hup] at h0; omega
      · rw [mWS_none_iff]
        right
        rw [hup] at hlt
        simp only [List.length_append, List.length_cons] at hlt
        constructor
        · rw [hup']
          simp only [List.length_append, List.length_cons, List.length_nil]
          omega
        · intro k hk1 hk2 hkn
          rw [hup'] at hk2
          by_cases hkp : k < p.length
          · have hyk : (p ++ ([' ', ' ', ' ', ' '] ++ t)).get? k = p.get? k :=
              List.get?_append hkp
            apply hno k hk1 (by rw [hup]; omega)
            rw [List.get?_append hkp, ← hyk]
            exact hkn
          · by_cases hkp4 : k < p.length + 4
            · have hyk : (p ++ ([' ', ' ', ' ', ' '] ++ t)).get? k =
                  ([' ', ' ', ' ', ' '] : List Char).get? (k - p.length) := by
                rw [List.get?_append_right (by omega),
                  List.get?_append (by
                    rw [show ([' ', ' ', ' ', ' '] : List Char).length = 4 from rfl]
                    omega)]
              rw [hyk, h4 (k - p.length) (by omega)] at hkn
              simp at hkn
            · have hk' : k - p.length - 4 < wsRun t := by omega
              have hyk : (p ++ ([' ', ' ', ' ', ' '] ++ t)).get? k =
                  t.get? (k - p.length - 4) := by
                rw [List.get?_append_right (by omega),
                  List.get?_append_right (by
                    rw [show ([' ', ' ', ' ', ' '] : List Char).length = 4 from rfl]
                    omega)]
                rw [show ([' ', ' ', ' ', ' '] : List Char).length = 4 from rfl]
              have hxk : (p ++ '\t' :: t).get? (p.length + 1 + (k - p.length - 4)) =
                  t.get? (k - p.length - 4) := by
                rw [List.get?_append_right (by omega)]
                rw [show p.length + 1 + (k - p.length - 4) - p.length =
                  (k - p.length - 4) + 1 by omega]
                rw [List.get?_cons_succ]
              apply hno (p.length + 1 + (k - p.length - 4)) (by omega) (by rw [hup]; omega)
              rw [hxk, ← hyk]
              exact hkn
  · push_neg at hji
    by_cases hj4 : j ≤ i + 4
    · -- previous character is one of the inserted spaces: not a line start
      exfalso
      cases j with
      | zero => omega
      | succ k =>
        have hyk : (x.take i ++ [' ', ' ', ' ', ' '] ++ t).get? k = some ' ' := by
          rw [List.get?_append (by omega), List.get?_append_right (by omega)]
          exact h4 (k - (x.take i).length) (by omega)
        rw [lineStartAt_succ, hyk] at hls
        simp at hls
    · -- position beyond the replacement: shift by three
      push_neg at hj4
      have hysuf : (x.take i ++ [' ', ' ', ' ', ' '] ++ t).drop j =
          t.drop (j - (i + 4)) := by
        have hda := @List.drop_append _ (x.take i ++ [' ', ' ', ' ', ' ']) t (j - (i + 4))
        rw [hlen_asp] at hda
        conv_lhs => rw [show j = i + 4 + (j - (i + 4)) by omega]
        exact hda
      have hxsuf : x.drop (i + 1 + (j - (i + 4))) = t.drop (j - (i + 4)) := by
        have h2 := congrArg (List.drop (j - (i + 4))) hdrop
        rw [List.drop_drop] at h2
        simpa [Nat.add_comm] using h2
      have hlsx : lineStartAt true x (i + 1 + (j - (i + 4))) = true := by
        obtain ⟨m', hm'⟩ : ∃ m', j - (i + 4) = m' + 1 := ⟨j - (i + 4) - 1, by omega⟩
        rw [hm']
        rw [show i + 1 + (m' + 1) = (i + 1 + m') + 1 by omega, lineStartAt_succ]
        have hxk : x.get? (i + 1 + m') = t.get? m' := by
          conv_lhs => rw [hx2]
          rw [List.get?_append_right (by omega)]
          rw [show i + 1 + m' - (x.take i).length = m' + 1 by omega]
          rw [List.get?_cons_succ]
        have hjk : j = ((i + 4) + m') + 1 := by omega
        rw [hjk, lineStartAt_succ] at hls
        have hyk : (x.take i ++ [' ', ' ', ' ', ' '] ++ t).get? (i + 4 + m') =
            t.get? m' := by
          rw [List.get?_append_right (by omega)]
          rw [hlen_asp]
          congr 1
          omega
        rw [hyk] at hls
        rw [hxk]
        exact hls
      have hnone := hall (i + 1 + (j - (i + 4)))
      rw [hlsx, hxsuf] at hnone
      rw [hysuf]
      exact hnone

theorem wsRun_eq_length_of_all (l : List Char) (h : ∀ c ∈ l, isWs c = true) :
    wsRun l = l.length := by
  induction l with
  | nil => rfl
  | cons c t ih =>
    rw [wsRun_cons_ws c t (h c (by simp))]
    simp only [List.length_cons]
    rw [ih (fun d hd => h d (by simp [hd]))]

theorem step_mCOMPRESS_WSfree (x y : List Char)
    (h : replaceStep mCOMPRESS ['\n', '\n'] x = some y)
    (hx : find mWHITESPACE x = none) : find mWHITESPACE y = none := by
  obtain ⟨i, n, hi, hin, hm, hy, -⟩ := replaceStep_parts mCOMPRESS _ x y h mCOMPRESS_ub
  obtain ⟨hnws, hcnt, hhead, hn3, hnle⟩ := mCOMPRESS_some _ _ _ hm
  have hbb : (x.drop i).drop n = x.drop (i + n) := by rw [List.drop_drop]
  have hsegb : x.drop i = (x.drop i).take n ++ x.drop (i + n) := by
    rw [← hbb, List.take_append_drop]
  have hseglen : ((x.drop i).take n).length = n := by
    rw [List.length_take, List.length_drop]
    omega
  have hlen_a : (x.take i).length = i := by rw [List.length_take]; omega
  have hx2 : x = x.take i ++ ((x.drop i).take n ++ x.drop (i + n)) := by
    conv_lhs => rw [← List.take_append_drop i x]
    rw [← hsegb]
  have hall := findAux_none_sound mWHITESPACE true x hx mWHITESPACE_nil
  have hallws_seg : ∀ c ∈ (x.drop i).take n, isWs c = true := by
    rw [hnws]; exact ws_all_take_wsRun _
  have hsegrun : wsRun ((x.drop i).take n) = n := by
    rw [wsRun_eq_length_of_all _ hallws_seg, hseglen]
  -- the text after the matched run is non-empty
  have hbne : x.drop (i + n) ≠ [] := by
    intro hbnil
    obtain ⟨s', hs'⟩ : ∃ s', x.drop i = '\n' :: s' := by
      cases hu : x.drop i with
      | nil => rw [hu] at hhead; simp at hhead
      | cons c t' =>
        rw [hu] at hhead
        simp at hhead
        exact ⟨t', by rw [hhead]⟩
    have hls1 : lineStartAt true x (i + 1) = true := by
      rw [lineStartAt_succ]
      have h0 : (x.drop i).get? 0 = some '\n' := by rw [hs']; rfl
      rw [List.get?_drop x i 0] at h0
      simp only [Nat.add_zero] at h0
      rw [h0]
      decide
    have hthis := hall (i + 1)
    rw [hls1] at hthis
    have hxd1 : x.drop (i + 1) = s' := by
      have h2 := congrArg (List.drop 1) hs'
      rw [List.drop_drop] at h2
      simpa [Nat.add_comm] using h2
    rw [hxd1] at hthis
    have hse : (x.drop i).take n = x.drop i := by
      apply List.take_of_length_le
      have := List.drop_eq_nil_iff_le.mp (hbb ▸ hbnil)
      omega
    have hs'ws : ∀ c ∈ s', isWs c = true := by
      intro c hc
      apply hallws_seg
      rw [hse, hs']
      exact List.mem_cons_of_mem _ hc
    have hs'run : wsRun s' = s'.length := wsRun_eq_length_of_all s' hs'ws
    have hs'len : 2 ≤ s'.length := by
      have hl1 : (x.drop i).length = n := by rw [← hse, hseglen]
      rw [hs'] at hl1
      simp only [List.length_cons] at hl1
      omega
    rw [mWS_none_iff] at hthis
    rcases hthis with h0 | ⟨hlt, -⟩
    · rw [hs'run] at h0; omega
    · rw [hs'run] at hlt; omega
  have hulen : n < (x.drop i).length := by
    have hle := List.length_drop (i + n) x
    have hbpos : 0 < (x.drop (i + n)).length := List.length_pos.mpr hbne
    rw [List.length_drop] at hbpos ⊢
    omega
  -- the text after the matched run starts with a non-whitespace character
  have hbrun : wsRun (x.drop (i + n)) = 0 := by
    obtain ⟨c0, hc0, hc0ws⟩ := wsRun_stop (x.drop i) (by omega)
    rw [← hnws] at hc0
    cases hbc : x.drop (i + n) with
    | nil => rfl
    | cons c b' =>
      have hgb : (x.drop i).get? n = some c := by
        rw [hsegb, List.get?_append_right (by omega)]
        rw [hseglen, Nat.sub_self, hbc]
        rfl
      rw [hgb] at hc0
      simp only [Option.some.injEq] at hc0
      subst hc0
      exact wsRun_cons_not c b' hc0ws
  subst hy
  apply find_none_of_all
  intro j
  by_cases hls : lineStartAt true (x.take i ++ ['\n', '\n'] ++ x.drop (i + n)) j = true
  case neg =>
    rw [Bool.not_eq_true] at hls
    rw [hls]
    exact mWHITESPACE_false _
  case pos =>
  rw [hls]
  by_cases hji : j ≤ i
  · have hlseq : lineStartAt true x j = true := by
      cases j with
      | zero => rfl
      | succ k =>
        have hk : k < i := by omega
        rw [lineStartAt_succ] at hls ⊢
        have hyk : (x.take i ++ ['\n', '\n'] ++ x.drop (i + n)).get? k =
            (x.take i).get? k := by
          rw [List.get?_append (by simp [hlen_a]; omega), List.get?_append (by omega)]
        have hxk : x.get? k = (x.take i).get? k := (List.get?_take hk).symm
        rw [hxk, ← hyk]
        exact hls
    have hnone := hall j
    rw [hlseq] at hnone
    have hxdropj : x.drop j = (x.take i).drop j ++ ((x.drop i).take n ++ x.drop (i + n)) := by
      conv_lhs => rw [hx2]
      rw [List.drop_append_of_le_length (by omega)]
    rw [hxdropj] at hnone
    rw [List.append_assoc, List.drop_append_of_le_length (by omega)]
    set p := (x.take i).drop j with hp
    by_cases hws : wsRun p < p.length
    · rw [mWS_congr p (['\n', '\n'] ++ x.drop (i + n))
        ((x.drop i).take n ++ x.drop (i + n)) hws]
      exact hnone
    · exfalso
      have hwsall : wsRun p = p.length := le_antisymm (wsRun_le p) (not_lt.mp hws)
      obtain ⟨k, hk1, hkn⟩ := exists_second_count ((x.drop i).take n) '\n' (by omega)
      have hk_lt : k < n := by
        have := (List.get?_eq_some.mp hkn).1
        rw [hseglen] at this
        exact this
      have hrun_u : wsRun (p ++ ((x.drop i).take n ++ x.drop (i + n))) =
          p.length + n := by
        rw [wsRun_append_all p _ hwsall,
          wsRun_append_all _ _ (by rw [hsegrun, hseglen]), hseglen, hbrun]
        omega
      rw [mWS_none_iff] at hnone
      rcases hnone with h0 | ⟨hlt, hno⟩
      · rw [hrun_u] at h0; omega
      · have hidx : (p ++ ((x.drop i).take n ++ x.drop (i + n))).get? (p.length + k) =
            some '\n' := by
          rw [List.get?_append_right (by omega),
            List.get?_append (by rw [hseglen]; omega)]
          rw [show p.length + k - p.length = k by omega]
          exact hkn
        exact hno (p.length + k) (by omega) (by rw [hrun_u]; omega) hidx
  · push_neg at hji
    by_cases hj1 : j = i + 1
    · subst hj1
      have hysuf : (x.take i ++ ['\n', '\n'] ++ x.drop (i + n)).drop (i + 1) =
          '\n' :: x.drop (i + n) := by
        rw [List.drop_append_of_le_length (by simp [hlen_a])]
        have hda := @List.drop_append _ (x.take i) ['\n', '\n'] 1
        rw [hlen_a] at hda
        rw [hda]
        rfl
      rw [hysuf, mWS_none_iff]
      right
      have hbpos : 0 < (x.drop (i + n)).length := List.length_pos.mpr hbne
      constructor
      · rw [wsRun_cons_ws '\n' _ (by decide), hbrun]
        simp only [List.length_cons]
        omega
      · intro k hk1 hk2 hkn
        rw [wsRun_cons_ws '\n' _ (by decide), hbrun] at hk2
        omega
    · by_cases hj2 : j = i + 2
      · subst hj2
        have hysuf : (x.take i ++ ['\n', '\n'] ++ x.drop (i + n)).drop (i + 2) =
            x.drop (i + n) := by
          have hda := @List.drop_append _ (x.take i ++ ['\n', '\n']) (x.drop (i + n)) 0
          have hl2 : (x.take i ++ ['\n', '\n']).length = i + 2 := by simp [hlen_a]
          rw [hl2] at hda
          simpa using hda
        rw [hysuf, mWS_none_iff]
        left
        exact hbrun
      · have hj3 : i + 3 ≤ j := by omega
        have hysuf : (x.take i ++ ['\n', '\n'] ++ x.drop (i + n)).drop j =
            (x.drop (i + n)).drop (j - (i + 2)) := by
          have hda := @List.drop_append _ (x.take i ++ ['\n', '\n'])
            (x.drop (i + n)) (j - (i + 2))
          have hl2 : (x.take i ++ ['\n', '\n']).length = i + 2 := by simp [hlen_a]
          rw [hl2] at hda
          conv_lhs => rw [show j = i + 2 + (j - (i + 2)) by omega]
          exact hda
        have hxsuf : x.drop (i + n + (j - (i + 2))) = (x.drop (i + n)).drop (j - (i + 2)) := by
          rw [List.drop_drop]
        have hlsx : lineStartAt true x (i + n + (j - (i + 2))) = true := by
          obtain ⟨m', hm'⟩ : ∃ m', j - (i + 2) = m' + 1 := ⟨j - (i + 2) - 1, by omega⟩
          rw [hm', show i + n + (m' + 1) = (i + n + m') + 1 by omega, lineStartAt_succ]
          have hjk : j = ((i + 2) + m') + 1 := by omega
          rw [hjk, lineStartAt_succ] at hls
          have hyk : (x.take i ++ ['\n', '\n'] ++ x.drop (i + n)).get? (i + 2 + m') =
              (x.drop (i + n)).get? m' := by
            rw [List.get?_append_right (by simp [hlen_a])]
            have hl2 : (x.take i ++ ['\n', '\n']).length = i + 2 := by simp [hlen_a]
            rw [hl2]
            congr 1
            omega
          rw [hyk] at hls
          have hxk : x.get? (i + n + m') = (x.drop (i + n)).get? m' := by
            rw [List.get?_drop x (i + n) m']
          rw [hxk]
          exact hls
        have hnone := hall (i + n + (j - (i + 2)))
        rw [hlsx, hxsuf] at hnone
        rw [hysuf]
        exact hnone

theorem find_mDOS_none_of (x : List Char) (h : '\r' ∉ x) : find mDOS x = none := by
  cases hf : find mDOS x with
  | none => rfl
  | some p =>
    obtain ⟨i, n⟩ := p
    have hm := (findAux_some_sound mDOS true x i n hf).1
    obtain ⟨-, t, ht⟩ := mDOS_some _ _ _ hm
    exact absurd (List.drop_subset i x (by rw [ht]; simp)) h

theorem find_mMAC_none_of (x : List Char) (h : '\r' ∉ x) : find mMAC x = none := by
  cases hf : find mMAC x with
  | none => rfl
  | some p =>
    obtain ⟨i, n⟩ := p
    have hm := (findAux_some_sound mMAC true x i n hf).1
    obtain ⟨-, t, ht⟩ := mMAC_some _ _ _ hm
    exact absurd (List.drop_subset i x (by rw [ht]; simp)) h

theorem find_mTAB_none_of (x : List Char) (h : '\t' ∉ x) : find mTAB x = none := by
  cases hf : find mTAB x with
  | none => rfl
  | some p =>
    obtain ⟨i, n⟩ := p
    have hm := (findAux_some_sound mTAB true x i n hf).1
    obtain ⟨-, t, ht⟩ := mTAB_some _ _ _ hm
    exact absurd (List.drop_subset i x (by rw [ht]; simp)) h

theorem find_mCONCAT_none_of (x : List Char) (h : '\\' ∉ x) : find mCONCAT x = none := by
  cases hf : find mCONCAT x with
  | none => rfl
  | some p =>
    obtain ⟨i, n⟩ := p
    have hm := (findAux_some_sound mCONCAT true x i n hf).1
    obtain ⟨-, t, ht⟩ := mCONCAT_some _ _ _ hm
    exact absurd (List.drop_subset i x (by rw [ht]; simp)) h

theorem substitute_fixed (y : List Char)
    (h1 : find mDOS y = none) (h2 : find mMAC y = none)
    (h3 : find mWHITESPACE y = none) (h4 : find mCONCAT y = none)
    (h5 : find mTAB y = none) (h6 : find mCOMPRESS y = none) :
    substitute y = y := by
  unfold substitute
  rw [regex_replace_id _ _ _ h1, regex_replace_id _ _ _ h2, regex_replace_id _ _ _ h3,
    regex_replace_id _ _ _ h4, regex_replace_id _ _ _ h5, regex_replace_id _ _ _ h6]

/-- C2 counterexample: the preprocessor is not idempotent.  On the input
consisting of a space, a backslash and a newline, one application yields a
single space (the backslash-newline pair is removed after the whitespace-line
pass has already run), while a second application removes the now
whitespace-only line. -/
theorem c2_counterexample_not_idempotent :
    substitute (" \\\n".data) = " ".data ∧
    substitute (substitute (" \\\n".data)) = "".data ∧
    substitute (substitute (" \\\n".data)) ≠ substitute (" \\\n".data) :=
  ⟨by decide, by decide, by decide⟩

/-- C2 (amended): the preprocessor is idempotent on every input that contains
no backslash character: substitute (substitute x) = substitute x.  (The
unrestricted claim fails: removing a backslash-newline pair can create a
whitespace-only line that only the next application trims.) -/
theorem c2_substitute_idempotent_of_no_backslash (x : List Char)
    (hbs : '\\' ∉ x) : substitute (substitute x) = substitute x := by
  have hb1 : '\\' ∉ regex_replace mDOS ['\n'] x :=
    regex_replace_not_mem _ _ _ (by decide) _ hbs
  have hb2 : '\\' ∉ regex_replace mMAC ['\n'] (regex_replace mDOS ['\n'] x) :=
    regex_replace_not_mem _ _ _ (by decide) _ hb1
  have hb3 : '\\' ∉ regex_replace mWHITESPACE []
      (regex_replace mMAC ['\n'] (regex_replace mDOS ['\n'] x)) :=
    regex_replace_not_mem _ _ _ (by simp) _ hb2
  -- the backslash-concatenation pass is the identity here
  have hz4 : regex_replace mCONCAT [] (regex_replace mWHITESPACE []
      (regex_replace mMAC ['\n'] (regex_replace mDOS ['\n'] x))) =
      regex_replace mWHITESPACE []
        (regex_replace mMAC ['\n'] (regex_replace mDOS ['\n'] x)) :=
    regex_replace_id _ _ _ (find_mCONCAT_none_of _ hb3)
  -- the whitespace-line regex has no match after its own pass, and the later
  -- passes preserve that
  have hws4 : find mWHITESPACE (regex_replace mCONCAT [] (regex_replace mWHITESPACE []
      (regex_replace mMAC ['\n'] (regex_replace mDOS ['\n'] x)))) = none := by
    rw [hz4]
    exact find_none_after_mWHITESPACE _
  have hws5 : find mWHITESPACE (regex_replace mTAB [' ', ' ', ' ', ' ']
      (regex_replace mCONCAT [] (regex_replace mWHITESPACE []
        (regex_replace mMAC ['\n'] (regex_replace mDOS ['\n'] x))))) = none :=
    regex_replace_inv mTAB _ (fun l => find mWHITESPACE l = none)
      step_mTAB_WSfree _ hws4
  have hws6 : find mWHITESPACE (substitute x) = none :=
    regex_replace_inv mCOMPRESS _ (fun l => find mWHITESPACE l = none)
      step_mCOMPRESS_WSfree _ hws5
  have hcr : '\r' ∉ substitute x := (c6_preprocessor_fixed_points x).1
  have htab : '\t' ∉ substitute x := (c6_preprocessor_fixed_points x).2.1
  have hbs6 : '\\' ∉ substitute x := by
    unfold substitute
    apply regex_replace_not_mem _ _ _ (by decide)
    apply regex_replace_not_mem _ _ _ (by decide)
    rw [hz4]
    exact hb3
  exact substitute_fixed _ (find_mDOS_none_of _ hcr) (find_mMAC_none_of _ hcr)
    hws6 (find_mCONCAT_none_of _ hbs6) (find_mTAB_none_of _ htab)
    (find_none_after_mCOMPRESS _)

/-- C2 witness: the amended idempotence theorem applied at a concrete
backslash-free input. -/
theorem c2_substitute_idempotent_witness :
    ('\\' ∉ ("a\n\n\n\nb".data)) ∧
    substitute (substitute ("a\n\n\n\nb".data)) = substitute ("a\n\n\n\nb".data) :=
  ⟨by decide, c2_substitute_idempotent_of_no_backslash ("a\n\n\n\nb".data) (by decide)⟩

/-!
Parser-side embedding.  Tokens and parser state follow `parsing/` in the
source: a parser is an immutable token list plus a position.  The `collect`
machinery (`collect_consume`, `collect_consume_keep`, `collect_text`) is not
under src/, so it is modelled from the spec (section 4.4): collection
repeatedly checks close conditions (success, stepping once past the matched
token — `step_on_final`), then invalid conditions (failure), then consumes the
current token through inline dispatch, which for the inputs of these rules
emits a single text element per token (the spec's fallback).
-/

/-- Token kinds (the closed set of section 3; kinds the embedded rules do not
inspect are folded into `other`). -/
inductive Token where
  | inputStart
  | inputEnd
  | lineBreak
  | paragraphBreak
  | whitespace
  | identifier
  | colon
  | leftBracket
  | leftBracketStar
  | rightBracket
  | bulletItem
  | numberedItem
  | other
deriving DecidableEq, Repr

/-- A lexical token with its input slice (`ExtractedToken` in the source). -/
structure ExtractedToken where
  token : Token
  slice : String
deriving DecidableEq, Repr

/-- Warning kinds used by the embedded rules (`ParseWarningKind` in the source). -/
inductive ParseWarningKind where
  | ruleFailed
  | invalidUrl
deriving DecidableEq, Repr

/-- Failure outcomes: a non-fatal warning, or the `panic!` branch of
`parse_item` in definition_list.rs (modelled as an explicit outcome so that
its unreachability can be stated). -/
inductive ParseFail where
  | warn (kind : ParseWarningKind)
  | panicInvalidClose
deriving DecidableEq, Repr

/-- List kinds (`ListType` in tree/list.rs). -/
inductive ListType where
  | bullet
  | numbered
deriving DecidableEq, Repr

/-- Container kinds (the subset of `ContainerType` the claims exercise). -/
inductive ContainerType where
  | paragraph
  | bold
  | italics
  | underline
  | strikethrough
  | ruby
  | rubyText
deriving DecidableEq, Repr

/-- Anchor targets for links (`AnchorTarget`; only NewTab is used here). -/
inductive AnchorTarget where
  | newTab
deriving DecidableEq, Repr

mutual
/-- Tree nodes (`Element` in tree/element.rs; the variants the claims
exercise).  `link` carries the URL, the already-trimmed text label, the
anchor target and the interwiki flag; `pending` is the source's `Partial`
variant holding an intermediate element. -/
inductive Element where
  | text (s : String)
  | link (url : String) (label : String) (target : Option AnchorTarget) (interwiki : Bool)
  | container (ty : ContainerType) (attributes : List (String × String)) (children : List Element)
  | list (ltype : ListType) (items : List ListItem)
  | definitionList (items : List (List Element × List Element))
  | pending (p : PendingElement)
deriving Repr

/-- Items of a `List` element: a run of elements or a nested sub-list. -/
inductive ListItem where
  | elements (els : List Element)
  | subList (l : Element)
deriving Repr

/-- Intermediate (`Partial`) elements: a RubyText body awaiting conversion,
or some other pending kind (the source's ruby conversion loop matches the
non-RubyText partials with a catch-all arm). -/
inductive PendingElement where
  | rubyText (attributes : List (String × String)) (elements : List Element)
  | otherPending (elements : List Element)
deriving Repr
end

/-- A key/value pair of a definition list (`DefinitionListItem`). -/
def DefinitionListItem : Type := List Element × List Element

/-- The token at a position; past the end the parser saturates at `InputEnd`. -/
def tokAt (toks : List ExtractedToken) (k : Nat) : Token :=
  (toks.getD k ⟨Token.inputEnd, ""⟩).token

/-- The slice of the token at a position. -/
def sliceAt (toks : List ExtractedToken) (k : Nat) : String :=
  (toks.getD k ⟨Token.inputEnd, ""⟩).slice

/-- The full token record at a position. -/
def tokenRecordAt (toks : List ExtractedToken) (k : Nat) : ExtractedToken :=
  toks.getD k ⟨Token.inputEnd, ""⟩

/-- Parser.start_of_line: the position is the beginning of input or the
previous token is a line break, paragraph break, or the input-start sentinel. -/
def start_of_line (toks : List ExtractedToken) (pos : Nat) : Bool :=
  match pos with
  | 0 => true
  | p + 1 =>
    match tokAt toks p with
    | Token.lineBreak => true
    | Token.paragraphBreak => true
    | Token.inputStart => true
    | _ => false

/-- Collection conditions (`ParseCondition`): match on the current token, or
on the pair (current, next). -/
inductive ParseCondition where
  | currentTok (t : Token)
  | tokenPair (t1 t2 : Token)
deriving DecidableEq, Repr

/-- Parser.evaluate on a single condition. -/
def evaluateCond (toks : List ExtractedToken) (pos : Nat) : ParseCondition → Bool
  | ParseCondition.currentTok t => tokAt toks pos = t
  | ParseCondition.tokenPair t1 t2 => tokAt toks pos = t1 && tokAt toks (pos + 1) = t2

/-- Modelled from the spec: `collect_consume_keep` (section 4.4).  Repeatedly:
if a close condition matches, succeed, returning the collected elements and
the closing token, stepping once past it; if an invalid condition matches,
fail with RuleFailed; if the input is exhausted, fail; otherwise consume the
current token through inline dispatch, which emits one text element holding
the token's slice. -/
def collect_consume_keep (toks : List ExtractedToken)
    (closeConds invalidConds : List ParseCondition) :
    Nat → Nat → Except ParseFail ((List Element × ExtractedToken) × Nat)
  | 0, _ => Except.error (ParseFail.warn ParseWarningKind.ruleFailed)
  | fuel + 1, pos =>
    if closeConds.any (evaluateCond toks pos) then
      Except.ok (([], tokenRecordAt toks pos), pos + 1)
    else if invalidConds.any (evaluateCond toks pos) then
      Except.error (ParseFail.warn ParseWarningKind.ruleFailed)
    else if tokAt toks pos = Token.inputEnd then
      Except.error (ParseFail.warn ParseWarningKind.ruleFailed)
    else
      match collect_consume_keep toks closeConds invalidConds fuel (pos + 1) with
      | Except.ok ((els, last), p') =>
        Except.ok ((Element.text (sliceAt toks pos) :: els, last), p')
      | Except.error e => Except.error e

/-- Modelled from the spec: `collect_consume` is the same collection without
the closing token. -/
def collect_consume (toks : List ExtractedToken)
    (closeConds invalidConds : List ParseCondition) (fuel pos : Nat) :
    Except ParseFail (List Element × Nat) :=
  match collect_consume_keep toks closeConds invalidConds fuel pos with
  | Except.ok ((els, _), p') => Except.ok (els, p')
  | Except.error e => Except.error e

/-- Modelled from the spec: `collect_text` gathers raw text only — the
concatenation of the consumed tokens' slices. -/
def collect_text (toks : List ExtractedToken)
    (closeConds invalidConds : List ParseCondition) :
    Nat → Nat → Except ParseFail (String × Nat)
  | 0, _ => Except.error (ParseFail.warn ParseWarningKind.ruleFailed)
  | fuel + 1, pos =>
    if closeConds.any (evaluateCond toks pos) then
      Except.ok ("", pos + 1)
    else if invalidConds.any (evaluateCond toks pos) then
      Except.error (ParseFail.warn ParseWarningKind.ruleFailed)
    else if tokAt toks pos = Token.inputEnd then
      Except.error (ParseFail.warn ParseWarningKind.ruleFailed)
    else
      match collect_text toks closeConds invalidConds fuel (pos + 1) with
      | Except.ok (s, p') => Except.ok (sliceAt toks pos ++ s, p')
      | Except.error e => Except.error e

/-- Whitespace-only text element (an element removed by whitespace
stripping). -/
def isWsText : Element → Bool
  | Element.text s => s.data.all isWs
  | _ => false

/-- Modelled from the spec: `strip_whitespace` removes whitespace from both
sides of a collected element run (leading and trailing whitespace-only text
elements). -/
def strip_whitespace (els : List Element) : List Element :=
  ((els.dropWhile isWsText).reverse.dropWhile isWsText).reverse

/-- parse_item from parsing/rule/impls/definition_list.rs.  The pattern for a
row is `: key : value \n`: require start of line and the head `Colon
Whitespace`; collect the key until a `Whitespace Colon` pair (paragraph or
line breaks are invalid), strip it, step past the separator; collect the
value until `ParagraphBreak`, `LineBreak` or `InputEnd`; a paragraph break or
input end marks the end of the whole list, a line break does not, and any
other closing token is the source's `panic!` branch; strip the value and
return the item. -/
def parse_item (toks : List ExtractedToken) (pos : Nat) :
    Except ParseFail ((DefinitionListItem × Bool) × Nat) :=
  if ¬ start_of_line toks pos then
    Except.error (ParseFail.warn ParseWarningKind.ruleFailed)
  else if ¬ (tokAt toks pos = Token.colon ∧ tokAt toks (pos + 1) = Token.whitespace) then
    Except.error (ParseFail.warn ParseWarningKind.ruleFailed)
  else
    match collect_consume toks [ParseCondition.tokenPair Token.whitespace Token.colon]
        [ParseCondition.currentTok Token.paragraphBreak,
         ParseCondition.currentTok Token.lineBreak]
        (toks.length + 1) (pos + 2) with
    | Except.error e => Except.error e
    | Except.ok (keyRaw, pos3) =>
      let key := strip_whitespace keyRaw
      match collect_consume_keep toks
          [ParseCondition.currentTok Token.paragraphBreak,
           ParseCondition.currentTok Token.lineBreak,
           ParseCondition.currentTok Token.inputEnd] []
          (toks.length + 1) (pos3 + 2) with
      | Except.error e => Except.error e
      | Except.ok ((valueRaw, last), pos5) =>
        match last.token with
        | Token.paragraphBreak =>
          Except.ok (((key, strip_whitespace valueRaw), true), pos5)
        | Token.inputEnd =>
          Except.ok (((key, strip_whitespace valueRaw), true), pos5)
        | Token.lineBreak =>
          Except.ok (((key, strip_whitespace valueRaw), false), pos5)
        | _ => Except.error ParseFail.panicInvalidClose

/-- The item-collection loop of parse_definition_list: keep parsing items on
a cloned parser, stopping at the first failure (which leaves the position
unchanged — the clone is discarded) or when an item reports the end of the
list. -/
def parse_definition_list_loop (toks : List ExtractedToken) :
    Nat → Nat → List DefinitionListItem → (List DefinitionListItem × Nat)
  | 0, pos, acc => (acc, pos)
  | fuel + 1, pos, acc =>
    match parse_item toks pos with
    | Except.error _ => (acc, pos)
    | Except.ok ((item, at_end), pos') =>
      if at_end then (acc ++ [item], pos')
      else parse_definition_list_loop toks fuel pos' (acc ++ [item])

/-- parse_definition_list from parsing/rule/impls/definition_list.rs: at
least one item, then the collection loop. -/
def parse_definition_list (toks : List ExtractedToken) (pos : Nat) :
    Except ParseFail (Element × Nat) :=
  match parse_item toks pos with
  | Except.error e => Except.error e
  | Except.ok ((item, at_end), pos1) =>
    if at_end then Except.ok (Element.definitionList [item], pos1)
    else
      match parse_definition_list_loop toks (toks.length + 1) pos1 [item] with
      | (items, pos2) => Except.ok (Element.definitionList items, pos2)

/-- Token stream for the input `": fruit : apple\n: color : red\n"`, modelled
from the spec's tokenizer section (4.2): whitespace runs coalesce into single
Whitespace tokens, identifiers are longest-match, and the `InputEnd` sentinel
closes the stream. -/
def c7toks : List ExtractedToken :=
  [⟨Token.colon, ":"⟩, ⟨Token.whitespace, " "⟩, ⟨Token.identifier, "fruit"⟩,
   ⟨Token.whitespace, " "⟩, ⟨Token.colon, ":"⟩, ⟨Token.whitespace, " "⟩,
   ⟨Token.identifier, "apple"⟩, ⟨Token.lineBreak, "\n"⟩,
   ⟨Token.colon, ":"⟩, ⟨Token.whitespace, " "⟩, ⟨Token.identifier, "color"⟩,
   ⟨Token.whitespace, " "⟩, ⟨Token.colon, ":"⟩, ⟨Token.whitespace, " "⟩,
   ⟨Token.identifier, "red"⟩, ⟨Token.lineBreak, "\n"⟩, ⟨Token.inputEnd, ""⟩]

/-- C7: each definition-list item is parsed as `: key : value` at start of
line with both sides whitespace-stripped; a line break after an item
continues the list and input end terminates it, so the two-line input yields
the two key/value pairs fruit/apple and color/red. -/
theorem c7_definition_list_concrete :
    parse_definition_list c7toks 0 =
      Except.ok (Element.definitionList
        [([Element.text "fruit"], [Element.text "apple"]),
         ([Element.text "color"], [Element.text "red"])], 16) := by
  rfl

theorem cck_error_ruleFailed (toks : List ExtractedToken)
    (closeConds invalidConds : List ParseCondition) :
    ∀ fuel pos e, collect_consume_keep toks closeConds invalidConds fuel pos =
      Except.error e → e = ParseFail.warn ParseWarningKind.ruleFailed := by
  intro fuel
  induction fuel with
  | zero =>
    intro pos e h
    rw [collect_consume_keep] at h
    simp only [Except.error.injEq] at h
    exact h.symm
  | succ f ih =>
    intro pos e h
    rw [collect_consume_keep] at h
    split at h
    · simp at h
    · split at h
      · simp only [Except.error.injEq] at h
        exact h.symm
      · split at h
        · simp only [Except.error.injEq] at h
          exact h.symm
        · cases hrec : collect_consume_keep toks closeConds invalidConds f (pos + 1) with
          | ok v => rw [hrec] at h; simp at h
          | error e' =>
            rw [hrec] at h
            simp only [Except.error.injEq] at h
            rw [← h]
            exact ih (pos + 1) e' hrec

theorem cck_ok_close (toks : List ExtractedToken)
    (closeConds invalidConds : List ParseCondition) :
    ∀ fuel pos els last p',
      collect_consume_keep toks closeConds invalidConds fuel pos =
        Except.ok ((els, last), p') →
      ∃ q, last = tokenRecordAt toks q ∧ closeConds.any (evaluateCond toks q) = true := by
  intro fuel
  induction fuel with
  | zero =>
    intro pos els last p' h
    rw [collect_consume_keep] at h
    simp at h
  | succ f ih =>
    intro pos els last p' h
    rw [collect_consume_keep] at h
    split at h
    · rename_i hcl
      simp only [Except.ok.injEq, Prod.mk.injEq] at h
      exact ⟨pos, h.1.2.symm, hcl⟩
    · split at h
      · simp at h
      · split at h
        · simp at h
        · cases hrec : collect_consume_keep toks closeConds invalidConds f (pos + 1) with
          | error e => rw [hrec] at h; simp at h
          | ok v =>
            rw [hrec] at h
            obtain ⟨⟨els', last'⟩, p''⟩ := v
            simp only [Except.ok.injEq, Prod.mk.injEq] at h
            obtain ⟨⟨-, hlast⟩, -⟩ := h
            obtain ⟨q, hq1, hq2⟩ := ih (pos + 1) els' last' p'' hrec
            exact ⟨q, hlast ▸ hq1, hq2⟩

theorem cc_error_ruleFailed (toks : List ExtractedToken)
    (closeConds invalidConds : List ParseCondition) (fuel pos : Nat) (e : ParseFail)
    (h : collect_consume toks closeConds invalidConds fuel pos = Except.error e) :
    e = ParseFail.warn ParseWarningKind.ruleFailed := by
  unfold collect_consume at h
  cases hk : collect_consume_keep toks closeConds invalidConds fuel pos with
  | ok v =>
    obtain ⟨⟨a, b⟩, c⟩ := v
    rw [hk] at h
    simp at h
  | error e' =>
    rw [hk] at h
    simp only [Except.error.injEq] at h
    rw [← h]
    exact cck_error_ruleFailed _ _ _ _ _ _ hk

/-- C10: the `panic!("Invalid close token")` branch of parse_item is
unreachable: the value collection's close conditions are exactly
ParagraphBreak, LineBreak and InputEnd, so the closing token returned by the
collection is always one of those three and the wildcard arm of the match on
`last.token` never runs. -/
theorem c10_parse_item_panic_unreachable (toks : List ExtractedToken) (pos : Nat) :
    parse_item toks pos ≠ Except.error ParseFail.panicInvalidClose := by
  intro hcon
  unfold parse_item at hcon
  split at hcon
  · simp at hcon
  · split at hcon
    · simp at hcon
    · split at hcon
      · rename_i e he
        simp only [Except.error.injEq] at hcon
        have h2 := cc_error_ruleFailed _ _ _ _ _ _ he
        rw [hcon] at h2
        simp at h2
      · rename_i keyRaw pos3 hkey
        split at hcon
        · rename_i e he
          simp only [Except.error.injEq] at hcon
          have h2 := cck_error_ruleFailed _ _ _ _ _ _ he
          rw [hcon] at h2
          simp at h2
        · rename_i valueRaw last pos5 hval
          split at hcon
          · simp at hcon
          · simp at hcon
          · simp at hcon
          · rename_i hne1 hne2 hne3
            obtain ⟨q, hq1, hq2⟩ := cck_ok_close _ _ _ _ _ _ _ _ hval
            have hlt : last.token = tokAt toks q := by rw [hq1]; rfl
            simp only [List.any_cons, List.any_nil, Bool.or_eq_true,
              evaluateCond, decide_eq_true_eq, Bool.or_eq_false_iff] at hq2
            rcases hq2 with h | h | h | h
            · exact hne1 (by rw [hlt, h])
            · exact hne3 (by rw [hlt, h])
            · exact hne2 (by rw [hlt, h])
            · simp at h

/-- Tokenizer invariant (section 4.2): whitespace runs coalesce, so two
adjacent Whitespace tokens never occur. -/
def noAdjacentWhitespace (toks : List ExtractedToken) : Prop :=
  ∀ k, k < toks.length → tokAt toks k = Token.whitespace →
    tokAt toks (k + 1) ≠ Token.whitespace

/-- Tokenizer invariant: every token other than whitespace, line/paragraph
breaks and the sentinels carries a slice with at least one non-whitespace
character. -/
def slicesFaithful (toks : List ExtractedToken) : Prop :=
  ∀ k, k < toks.length →
    (tokAt toks k ≠ Token.whitespace ∧ tokAt toks k ≠ Token.lineBreak ∧
     tokAt toks k ≠ Token.paragraphBreak ∧ tokAt toks k ≠ Token.inputStart ∧
     tokAt toks k ≠ Token.inputEnd) →
    (sliceAt toks k).data.all isWs = false

/-- Tokenizer invariant: the InputStart sentinel only occurs at position 0. -/
def inputStartOnlyAtZero (toks : List ExtractedToken) : Prop :=
  ∀ k, k < toks.length → 0 < k → tokAt toks k ≠ Token.inputStart

theorem tokAt_of_le (toks : List ExtractedToken) (k : Nat) (h : toks.length ≤ k) :
    tokAt toks k = Token.inputEnd := by
  unfold tokAt
  rw [List.getD_eq_default _ _ h]

theorem mem_dropWhile_self (l : List Element) (p : Element → Bool) (e : Element)
    (he : e ∈ l) (hpe : p e = false) : e ∈ l.dropWhile p := by
  induction l with
  | nil => simp at he
  | cons c t ih =>
    rw [List.dropWhile_cons]
    rcases List.mem_cons.mp he with rfl | he'
    · rw [hpe]
      simp
    · by_cases hc : p c = true
      · rw [hc]
        simp only [if_true]
        exact ih he'
      · rw [Bool.not_eq_true] at hc
        rw [hc]
        simp [he']

theorem strip_whitespace_ne_nil (els : List Element) (e : Element)
    (he : e ∈ els) (hpe : isWsText e = false) : strip_whitespace els ≠ [] := by
  intro hnil
  unfold strip_whitespace at hnil
  rw [List.reverse_eq_nil_iff] at hnil
  have h1 : e ∈ els.dropWhile isWsText := mem_dropWhile_self _ _ _ he hpe
  have h2 : e ∈ (els.dropWhile isWsText).reverse := by simpa using h1
  have h3 : e ∈ (els.dropWhile isWsText).reverse.dropWhile isWsText :=
    mem_dropWhile_self _ _ _ h2 hpe
  rw [hnil] at h3
  simp at h3

theorem cck_ok_first (toks : List ExtractedToken)
    (closeConds invalidConds : List ParseCondition) (f pos : Nat)
    (els : List Element) (last : ExtractedToken) (p' : Nat)
    (h : collect_consume_keep toks closeConds invalidConds (f + 1) pos =
      Except.ok ((els, last), p'))
    (hclose : closeConds.any (evaluateCond toks pos) = false) :
    invalidConds.any (evaluateCond toks pos) = false ∧ tokAt toks pos ≠ Token.inputEnd ∧
    ∃ els', els = Element.text (sliceAt toks pos) :: els' ∧
      collect_consume_keep toks closeConds invalidConds f (pos + 1) =
        Except.ok ((els', last), p') := by
  rw [collect_consume_keep, hclose] at h
  simp only [Bool.false_eq_true, if_false] at h
  split at h
  · simp at h
  · split at h
    · simp at h
    · rename_i hinv hend
      cases hrec : collect_consume_keep toks closeConds invalidConds f (pos + 1) with
      | error e => rw [hrec] at h; simp at h
      | ok v =>
        obtain ⟨⟨els', last'⟩, p''⟩ := v
        rw [hrec] at h
        simp only [Except.ok.injEq, Prod.mk.injEq] at h
        obtain ⟨⟨he, hl⟩, hp⟩ := h
        refine ⟨by simpa using hinv, by simpa using hend, els', he.symm, ?_⟩
        rw [hl, hp]

/-- C3: under the tokenizer invariants (no adjacent whitespace tokens,
faithful slices, InputStart only at position 0), every item produced by the
definition-list item rule has a key that is non-empty after whitespace
stripping; equivalently an empty-after-stripping key never results from a
successful match. -/
theorem c3_definition_list_key_nonempty (toks : List ExtractedToken) (pos : Nat)
    (key value : List Element) (brk : Bool) (p' : Nat)
    (hna : noAdjacentWhitespace toks) (hsf : slicesFaithful toks)
    (his : inputStartOnlyAtZero toks)
    (hok : parse_item toks pos = Except.ok (((key, value), brk), p')) :
    key ≠ [] := by
  unfold parse_item at hok
  split at hok
  · simp at hok
  · split at hok
    · simp at hok
    · rename_i hsol hhead
      have hhead' : tokAt toks pos = Token.colon ∧ tokAt toks (pos + 1) = Token.whitespace :=
        Decidable.of_not_not hhead
      obtain ⟨hc, hw⟩ := hhead'
      split at hok
      · simp at hok
      · rename_i keyRaw pos3 hkey
        split at hok
        · simp at hok
        · rename_i valueRaw last pos5 hval
          -- extract key = strip_whitespace keyRaw from the final match
          have hkeyeq : strip_whitespace keyRaw = key := by
            split at hok
            · simp only [Except.ok.injEq, Prod.mk.injEq] at hok
              exact congrArg Prod.fst hok.1.1
            · simp only [Except.ok.injEq, Prod.mk.injEq] at hok
              exact congrArg Prod.fst hok.1.1
            · simp only [Except.ok.injEq, Prod.mk.injEq] at hok
              exact congrArg Prod.fst hok.1.1
            · simp at hok
          -- the token right after the head cannot be whitespace
          have hlt1 : pos + 1 < toks.length := by
            by_contra hge
            rw [tokAt_of_le toks (pos + 1) (by omega)] at hw
            exact absurd hw (by simp)
          have hnw2 : tokAt toks (pos + 2) ≠ Token.whitespace := by
            have := hna (pos + 1) hlt1 hw
            simpa [Nat.add_assoc] using this
          -- the key collection consumed at least one token, a text element
          have hclose2 : ([ParseCondition.tokenPair Token.whitespace Token.colon].any
              (evaluateCond toks (pos + 2))) = false := by
            simp only [List.any_cons, List.any_nil, Bool.or_false, evaluateCond]
            simp [hnw2]
          unfold collect_consume at hkey
          rcases hk2 : collect_consume_keep toks
              [ParseCondition.tokenPair Token.whitespace Token.colon]
              [ParseCondition.currentTok Token.paragraphBreak,
               ParseCondition.currentTok Token.lineBreak]
              (toks.length + 1) (pos + 2) with e | v
          · rw [hk2] at hkey; simp at hkey
          · obtain ⟨⟨els2, last2⟩, p2⟩ := v
            rw [hk2] at hkey
            simp only [Except.ok.injEq, Prod.mk.injEq] at hkey
            obtain ⟨hkr, -⟩ := hkey
            obtain ⟨hinv, hend, els', hels, -⟩ :=
              cck_ok_first toks _ _ toks.length (pos + 2) els2 last2 p2 hk2 hclose2
            -- the first collected token is not a break, sentinel or whitespace
            have hinv' : tokAt toks (pos + 2) ≠ Token.paragraphBreak ∧
                tokAt toks (pos + 2) ≠ Token.lineBreak := by
              simp only [List.any_cons, List.any_nil, Bool.or_false, Bool.or_eq_false_iff,
                evaluateCond] at hinv
              constructor
              · intro hcon; rw [hcon] at hinv; simp at hinv
              · intro hcon; rw [hcon] at hinv; simp at hinv
            have hlt2 : pos + 2 < toks.length := by
              by_contra hge
              exact hend (tokAt_of_le toks (pos + 2) (by omega))
            have hnis : tokAt toks (pos + 2) ≠ Token.inputStart :=
              his (pos + 2) hlt2 (by omega)
            have hslice : (sliceAt toks (pos + 2)).data.all isWs = false :=
              hsf (pos + 2) hlt2 ⟨hnw2, hinv'.2, hinv'.1, hnis, hend⟩
            have hmem : Element.text (sliceAt toks (pos + 2)) ∈ keyRaw := by
              rw [← hkr, hels]
              simp
            have hwt : isWsText (Element.text (sliceAt toks (pos + 2))) = false := by
              unfold isWsText
              exact hslice
            rw [← hkeyeq]
            exact strip_whitespace_ne_nil keyRaw _ hmem hwt


theorem c3_definition_list_key_nonempty_witness :
    noAdjacentWhitespace c7toks ∧ slicesFaithful c7toks ∧ inputStartOnlyAtZero c7toks ∧
    parse_item c7toks 0 =
      Except.ok ((([Element.text "fruit"], [Element.text "apple"]), false), 8) ∧
    ([Element.text "fruit"] : List Element) ≠ [] :=
  ⟨by unfold noAdjacentWhitespace; decide,
   by unfold slicesFaithful; decide,
   by unfold inputStartOnlyAtZero; decide,
   by rfl,
   c3_definition_list_key_nonempty c7toks 0 [Element.text "fruit"]
     [Element.text "apple"] false 8
     (by unfold noAdjacentWhitespace; decide)
     (by unfold slicesFaithful; decide)
     (by unfold inputStartOnlyAtZero; decide)
     (by rfl)⟩


/-- `get_list_type` of parsing/rule/impls/list.rs: which bullet tokens open
a list item, and the list type each one denotes. -/
def get_list_type : Token → Option ListType
  | Token.bulletItem => some ListType.bullet
  | Token.numberedItem => some ListType.numbered
  | _ => none

/-- Modelled from the spec: a depth list is a tree representation of nested
lists derived from a flat sequence of (depth, kind, items); an entry is
either a run of inline elements or a nested sub-list with its own type. -/
inductive DepthItem where
  | item (els : List Element)
  | list (ltype : ListType) (children : List DepthItem)

/-- Modelled from the spec: fold the flat (depth, kind, elements) sequence
into a depth list by pushing deeper items onto the current path and popping
on shallower items; items at the current depth merge into the current list
(its type stays the outer list's type), and a deeper item opens a sub-list
whose type is that item's kind.  Fuel-based for termination; each element
costs at most two units. -/
def buildDepthItems : Nat → Nat → List (Nat × ListType × List Element) →
    List DepthItem × List (Nat × ListType × List Element)
  | 0, _, rest => ([], rest)
  | _ + 1, _, [] => ([], [])
  | fuel + 1, cur, (d, k, els) :: rest =>
    if d < cur then ([], (d, k, els) :: rest)
    else if d = cur then
      let (items, rest') := buildDepthItems fuel cur rest
      (DepthItem.item els :: items, rest')
    else
      let (sub, rest') := buildDepthItems fuel d ((d, k, els) :: rest)
      let (items, rest'') := buildDepthItems fuel cur rest'
      (DepthItem.list k sub :: items, rest'')

/-- Modelled from the spec: `process_depths` builds the depth-list tree from
the flat sequence (its first argument, the top list type, does not affect
the produced items; the top type is applied by `build_list_element`). -/
def process_depths (_top : ListType) (depths : List (Nat × ListType × List Element)) :
    List DepthItem :=
  (buildDepthItems (2 * depths.length + 1) 0 depths).1

mutual
/-- `build_list_element` of parsing/rule/impls/list.rs: wrap the depth list
in an `Element.list` whose type is the given top type. -/
def build_list_element (l : List DepthItem) (top : ListType) : Element :=
  Element.list top (buildItems l)
/-- The `build_item` closure of `build_list_element`: element runs become
`ListItem.elements`, nested depth lists become `ListItem.subList` built with
their own recorded type. -/
def buildItems : List DepthItem → List ListItem
  | [] => []
  | DepthItem.item els :: rest => ListItem.elements els :: buildItems rest
  | DepthItem.list lt sub :: rest =>
    ListItem.subList (build_list_element sub lt) :: buildItems rest
end

/-- The main loop of `try_consume_fn` in parsing/rule/impls/list.rs: each
iteration reads an optional Whitespace token whose slice length is the item
depth, a bullet token giving the item type (recorded as the top list type if
none is set yet), a mandatory Whitespace separator, then collects inline
elements until LineBreak or InputEnd (ParagraphBreak is invalid).  Any other
shape breaks the loop, returning the accumulated (depth, type, elements)
triples, the top type and the final position.  Fuel-based: every iteration
advances the position, so `toks.length + 2` fuel is never exhausted on a
successful run. -/
def listLoop (toks : List ExtractedToken) :
    Nat → Nat → Option ListType →
    Except ParseFail (List (Nat × ListType × List Element) × Option ListType × Nat)
  | 0, _, _ => Except.error (ParseFail.warn ParseWarningKind.ruleFailed)
  | fuel + 1, pos, top =>
    let dp : Option (Nat × Nat) :=
      if tokAt toks pos = Token.whitespace then
        some ((sliceAt toks pos).data.length, pos + 1)
      else if (get_list_type (tokAt toks pos)).isSome then some (0, pos)
      else none
    match dp with
    | none => Except.ok ([], top, pos)
    | some (depth, pos2) =>
      match get_list_type (tokAt toks pos2) with
      | none => Except.ok ([], top, pos2)
      | some ltype =>
        let top' := match top with | none => some ltype | some t => some t
        if tokAt toks (pos2 + 1) = Token.whitespace then
          match collect_consume toks
              [ParseCondition.currentTok Token.lineBreak,
               ParseCondition.currentTok Token.inputEnd]
              [ParseCondition.currentTok Token.paragraphBreak]
              (toks.length + 1) (pos2 + 2) with
          | Except.error e => Except.error e
          | Except.ok (els, pos4) =>
            match listLoop toks fuel pos4 top' with
            | Except.error e => Except.error e
            | Except.ok (rest, topf, posf) =>
              Except.ok ((depth, ltype, els) :: rest, topf, posf)
        else Except.ok ([], top, pos2 + 1)

/-- `try_consume_fn` of parsing/rule/impls/list.rs: assert the current token
is InputStart or LineBreak (the tokenizer only emits bullets there; the
assertion failure is modelled as a rule failure), step, run the item loop;
an empty depth sequence is a rule failure, otherwise the element is built by
`process_depths` and `build_list_element` with the recorded top list type
(`top_list_type.unwrap()`; the None case cannot occur with a non-empty
depth sequence and is modelled as a rule failure). -/
def list_try_consume (toks : List ExtractedToken) (pos : Nat) :
    Except ParseFail (Element × Nat) :=
  if tokAt toks pos = Token.inputStart ∨ tokAt toks pos = Token.lineBreak then
    match listLoop toks (toks.length + 2) (pos + 1) none with
    | Except.error e => Except.error e
    | Except.ok (depths, top, posf) =>
      match depths, top with
      | [], _ => Except.error (ParseFail.warn ParseWarningKind.ruleFailed)
      | _ :: _, none => Except.error (ParseFail.warn ParseWarningKind.ruleFailed)
      | _ :: _, some lt =>
        Except.ok (build_list_element (process_depths lt depths) lt, posf)
  else Except.error (ParseFail.warn ParseWarningKind.ruleFailed)


theorem listLoop_top_persist (toks : List ExtractedToken) :
    ∀ fuel pos lt d t p,
      listLoop toks fuel pos (some lt) = Except.ok (d, t, p) → t = some lt := by
  intro fuel
  induction fuel with
  | zero =>
    intro pos lt d t p h
    simp [listLoop] at h
  | succ n ih =>
    intro pos lt d t p h
    unfold listLoop at h
    dsimp only at h
    split at h
    · simp only [Except.ok.injEq, Prod.mk.injEq] at h
      exact h.2.1.symm
    · split at h
      · simp only [Except.ok.injEq, Prod.mk.injEq] at h
        exact h.2.1.symm
      · split at h
        · split at h
          · simp at h
          · split at h
            · simp at h
            · rename_i rest topf posf hrec
              simp only [Except.ok.injEq, Prod.mk.injEq] at h
              rw [← h.2.1]
              exact ih _ _ _ _ _ hrec
        · simp only [Except.ok.injEq, Prod.mk.injEq] at h
          exact h.2.1.symm

theorem listLoop_head_kind (toks : List ExtractedToken) :
    ∀ fuel pos ds t p, listLoop toks fuel pos none = Except.ok (ds, t, p) →
    ∀ dep k els rest, ds = (dep, k, els) :: rest →
      t = some k ∧ (get_list_type (tokAt toks pos) = some k ∨
        (tokAt toks pos = Token.whitespace ∧
         get_list_type (tokAt toks (pos + 1)) = some k)) := by
  intro fuel pos ds t p h dep k els rest hds
  match fuel with
  | 0 => simp [listLoop] at h
  | n + 1 =>
    unfold listLoop at h
    dsimp only at h
    split at h
    · rename_i heq
      rw [hds] at h
      simp at h
    · rename_i pr depth pos2 heq
      split at h
      · rw [hds] at h
        simp at h
      · rename_i ltype hlt
        split at h
        · rename_i hws
          split at h
          · simp at h
          · rename_i els2 pos4 hcoll
            split at h
            · simp at h
            · rename_i rest2 topf posf hrec
              rw [hds] at h
              simp only [Except.ok.injEq, Prod.mk.injEq, List.cons.injEq] at h
              obtain ⟨⟨hhead, -⟩, htf, -⟩ := h
              have hk : ltype = k := hhead.2.1
              have htop : topf = some ltype :=
                listLoop_top_persist toks n pos4 ltype rest2 topf posf hrec
              constructor
              · rw [← htf, htop, hk]
              · -- the dp selection distinguishes the whitespace and bullet paths
                by_cases hwsp : tokAt toks pos = Token.whitespace
                · right
                  refine ⟨hwsp, ?_⟩
                  have hpos2 : pos2 = pos + 1 := by
                    rw [if_pos hwsp] at heq
                    exact (congrArg Prod.snd (Option.some.inj heq)).symm
                  rw [← hpos2, hlt, hk]
                · left
                  have hpos2 : pos2 = pos := by
                    rw [if_neg hwsp] at heq
                    split at heq
                    · exact (congrArg Prod.snd (Option.some.inj heq)).symm
                    · simp at heq
                  rw [← hpos2, hlt, hk]
        · rw [hds] at h
          simp at h


def c4toks : List ExtractedToken :=
  [⟨Token.inputStart, ""⟩, ⟨Token.bulletItem, "*"⟩, ⟨Token.whitespace, " "⟩,
   ⟨Token.identifier, "item"⟩, ⟨Token.lineBreak, "\n"⟩,
   ⟨Token.numberedItem, "#"⟩, ⟨Token.whitespace, " "⟩,
   ⟨Token.identifier, "two"⟩, ⟨Token.inputEnd, ""⟩]

/-- C4: every List element produced by the list rule carries as its
top-level type the type of the first (depth, type, elements) triple of the
flat depth sequence, which is the type derived by `get_list_type` from the
first bullet token the loop encountered (directly at the start position, or
right after the depth whitespace) — later items at the same depth with a
different bullet kind do not change it. -/
theorem c4_list_top_type (toks : List ExtractedToken) (pos : Nat)
    (e : Element) (p' : Nat)
    (h : list_try_consume toks pos = Except.ok (e, p')) :
    ∃ lt dep els rest t posf,
      listLoop toks (toks.length + 2) (pos + 1) none =
        Except.ok ((dep, lt, els) :: rest, t, posf) ∧
      e = Element.list lt
        (buildItems (process_depths lt ((dep, lt, els) :: rest))) ∧
      (get_list_type (tokAt toks (pos + 1)) = some lt ∨
        (tokAt toks (pos + 1) = Token.whitespace ∧
         get_list_type (tokAt toks (pos + 2)) = some lt)) := by
  unfold list_try_consume at h
  split at h
  · cases hloop : listLoop toks (toks.length + 2) (pos + 1) none with
    | error e0 => rw [hloop] at h; simp at h
    | ok v =>
      obtain ⟨ds, top, posf⟩ := v
      rw [hloop] at h
      rcases ds with _ | ⟨⟨dep0, k0, els0⟩, tl0⟩
      · simp at h
      · rcases top with _ | ltv
        · simp at h
        · dsimp only at h
          obtain ⟨hkind, hbullet⟩ :=
            listLoop_head_kind toks (toks.length + 2) (pos + 1)
              ((dep0, k0, els0) :: tl0) (some ltv) posf hloop
              dep0 k0 els0 tl0 rfl
          injection hkind with hk0
          subst hk0
          simp only [Except.ok.injEq, Prod.mk.injEq] at h
          obtain ⟨he, -⟩ := h
          refine ⟨ltv, dep0, els0, tl0, some ltv, posf, rfl, ?_, hbullet⟩
          rw [← he]
          unfold build_list_element
          rfl
  · simp at h


theorem c4_list_top_type_witness :
    ∃ lt dep els rest t posf,
      listLoop c4toks (c4toks.length + 2) (0 + 1) none =
        Except.ok ((dep, lt, els) :: rest, t, posf) ∧
      Element.list ListType.bullet
          [ListItem.elements [Element.text "item"],
           ListItem.elements [Element.text "two"]] =
        Element.list lt (buildItems (process_depths lt ((dep, lt, els) :: rest))) ∧
      (get_list_type (tokAt c4toks (0 + 1)) = some lt ∨
        (tokAt c4toks (0 + 1) = Token.whitespace ∧
         get_list_type (tokAt c4toks (0 + 2)) = some lt)) :=
  c4_list_top_type c4toks 0
    (Element.list ListType.bullet
      [ListItem.elements [Element.text "item"],
       ListItem.elements [Element.text "two"]])
    9 (by
      have h1 : list_try_consume c4toks 0 =
          Except.ok (build_list_element
            [DepthItem.item [Element.text "item"],
             DepthItem.item [Element.text "two"]] ListType.bullet, 9) := rfl
      rw [h1]
      simp [build_list_element, buildItems])


/-- `url_valid` of parsing/rule/impls/link_single.rs: an empty URL is
invalid, a URL starting with `/` is a valid relative link, otherwise the
`is_url` predicate of the url module (a parameter here) decides. -/
def url_valid (isUrl : String → Bool) (url : String) : Bool :=
  if url.data = [] then false
  else if url.data.head? = some '/' then true
  else if isUrl url then true
  else false

/-- Rust `str::trim` as used on the link label: remove leading and trailing
Unicode whitespace. -/
def trimStr (s : String) : String :=
  ⟨((s.data.dropWhile isWs).reverse.dropWhile isWs).reverse⟩

/-- Modelled from the spec: `check_step` matches the current token and steps
past it, failing the rule otherwise. -/
def check_step (toks : List ExtractedToken) (pos : Nat) (tok : Token) :
    Except ParseFail Nat :=
  if tokAt toks pos = tok then Except.ok (pos + 1)
  else Except.error (ParseFail.warn ParseWarningKind.ruleFailed)

/-- The remainder of `try_consume_link` in link_single.rs once the URL text
has been collected: substitute the interwiki expansion when the resolver
accepts the collected text, reject an invalid resulting URL with an
InvalidUrl warning, collect the label up to the right bracket (breaks are
invalid), trim it, and build the link element. -/
def link_after_raw (iw : String → Option String) (isUrl : String → Bool)
    (target : Option AnchorTarget) (toks : List ExtractedToken)
    (raw : String) (pos2 : Nat) : Except ParseFail (Element × Nat) :=
  let uw : String × Bool :=
    match iw raw with
    | some url => (url, true)
    | none => (raw, false)
  if url_valid isUrl uw.1 = false then
    Except.error (ParseFail.warn ParseWarningKind.invalidUrl)
  else
    match collect_text toks [ParseCondition.currentTok Token.rightBracket]
        [ParseCondition.currentTok Token.paragraphBreak,
         ParseCondition.currentTok Token.lineBreak] (toks.length + 1) pos2 with
    | Except.error e => Except.error e
    | Except.ok (label, pos3) =>
      Except.ok (Element.link uw.1 (trimStr label) target uw.2, pos3)

/-- `try_consume_link` of link_single.rs: collect the URL text up to
whitespace (right bracket and breaks are invalid), then proceed with
`link_after_raw`.  The interwiki resolver and the url predicate are
parameters. -/
def try_consume_link (iw : String → Option String) (isUrl : String → Bool)
    (target : Option AnchorTarget) (toks : List ExtractedToken) (pos : Nat) :
    Except ParseFail (Element × Nat) :=
  match collect_text toks [ParseCondition.currentTok Token.whitespace]
      [ParseCondition.currentTok Token.rightBracket,
       ParseCondition.currentTok Token.paragraphBreak,
       ParseCondition.currentTok Token.lineBreak] (toks.length + 1) pos with
  | Except.error e => Except.error e
  | Except.ok (raw, pos2) => link_after_raw iw isUrl target toks raw pos2

/-- `link` of link_single.rs (RULE_LINK_SINGLE): check-step a left bracket,
then consume the link with no anchor target. -/
def link_rule (iw : String → Option String) (isUrl : String → Bool)
    (toks : List ExtractedToken) (pos : Nat) : Except ParseFail (Element × Nat) :=
  match check_step toks pos Token.leftBracket with
  | Except.error e => Except.error e
  | Except.ok pos1 => try_consume_link iw isUrl none toks pos1

/-- `link_new_tab` of link_single.rs (RULE_LINK_SINGLE_NEW_TAB): check-step
a `[*` token, then consume the link with the NewTab anchor target. -/
def link_new_tab_rule (iw : String → Option String) (isUrl : String → Bool)
    (toks : List ExtractedToken) (pos : Nat) : Except ParseFail (Element × Nat) :=
  match check_step toks pos Token.leftBracketStar with
  | Except.error e => Except.error e
  | Except.ok pos1 => try_consume_link iw isUrl (some AnchorTarget.newTab) toks pos1

/-- Modelled from the spec: when a rule fails with a warning the surrounding
loop records the warning, emits a text token for the current slice, and
continues with the next token; when it succeeds, the produced element is
appended and parsing resumes after the consumed tokens. -/
def ruleStep (recur : Nat → List Element × List ParseWarningKind)
    (fallbackSlice : String) (pos : Nat)
    (res : Except ParseFail (Element × Nat)) :
    List Element × List ParseWarningKind :=
  match res with
  | Except.ok (el, pos') =>
    match recur pos' with
    | (els, ws) => (el :: els, ws)
  | Except.error (ParseFail.warn k) =>
    match recur (pos + 1) with
    | (els, ws) => (Element.text fallbackSlice :: els, k :: ws)
  | Except.error ParseFail.panicInvalidClose => ([], [])

/-- Modelled from the spec: the main parse loop over the token stream,
restricted to the two single-bracket link rules; tokens with no applicable
rule become text elements directly, and the loop stops at InputEnd. -/
def consumeLoop (iw : String → Option String) (isUrl : String → Bool)
    (toks : List ExtractedToken) :
    Nat → Nat → List Element × List ParseWarningKind
  | 0, _ => ([], [])
  | fuel + 1, pos =>
    match tokAt toks pos with
    | Token.inputEnd => ([], [])
    | Token.leftBracket =>
      ruleStep (consumeLoop iw isUrl toks fuel) (sliceAt toks pos) pos
        (link_rule iw isUrl toks pos)
    | Token.leftBracketStar =>
      ruleStep (consumeLoop iw isUrl toks fuel) (sliceAt toks pos) pos
        (link_new_tab_rule iw isUrl toks pos)
    | _ =>
      match consumeLoop iw isUrl toks fuel (pos + 1) with
      | (els, ws) => (Element.text (sliceAt toks pos) :: els, ws)

/-- The token stream of the input "[ Label]". -/
def c1toks : List ExtractedToken :=
  [⟨Token.leftBracket, "["⟩, ⟨Token.whitespace, " "⟩,
   ⟨Token.identifier, "Label"⟩, ⟨Token.rightBracket, "]"⟩, ⟨Token.inputEnd, ""⟩]

/-- The token stream of the input "[https://example.com/ Label text]". -/
def c1stoks : List ExtractedToken :=
  [⟨Token.leftBracket, "["⟩, ⟨Token.other, "https://example.com/"⟩,
   ⟨Token.whitespace, " "⟩, ⟨Token.identifier, "Label"⟩,
   ⟨Token.whitespace, " "⟩, ⟨Token.identifier, "text"⟩,
   ⟨Token.rightBracket, "]"⟩, ⟨Token.inputEnd, ""⟩]


/-- C1: single-bracket link rule.  (a) On "[ Label]" the rule itself fails
with an InvalidUrl warning (the URL collected up to the whitespace is empty,
hence invalid) whenever the interwiki resolver rejects the empty string;
(b) the surrounding loop then emits the bracketed text as four Text elements
and records the single InvalidUrl warning; (c) whenever `try_consume_link`
succeeds, the URL text was collected up to whitespace, the label up to the
right bracket, the interwiki expansion was substituted when the resolver
accepted the URL (else the raw URL was kept), the resulting URL passes
`url_valid`, and the element is a Link with the trimmed label;
(d) if the resolver rejects the collected URL and `url_valid` rejects it
too, the rule fails with InvalidUrl; (e) on the tokens of
"[https://example.com/ Label text]", when the predicate accepts that URL
and the resolver rejects it, the rule produces
Link(url, label "Label text", no target, interwiki false). -/
theorem c1_link_single (iw : String → Option String) (isUrl : String → Bool)
    (hiw : iw "" = none) :
    (link_rule iw isUrl c1toks 0 =
      Except.error (ParseFail.warn ParseWarningKind.invalidUrl)) ∧
    (consumeLoop iw isUrl c1toks (c1toks.length + 1) 0 =
      ([Element.text "[", Element.text " ", Element.text "Label",
        Element.text "]"], [ParseWarningKind.invalidUrl])) ∧
    (∀ target toks pos e p',
      try_consume_link iw isUrl target toks pos = Except.ok (e, p') →
      ∃ raw pos2 label pos3,
        collect_text toks [ParseCondition.currentTok Token.whitespace]
          [ParseCondition.currentTok Token.rightBracket,
           ParseCondition.currentTok Token.paragraphBreak,
           ParseCondition.currentTok Token.lineBreak] (toks.length + 1) pos =
          Except.ok (raw, pos2) ∧
        collect_text toks [ParseCondition.currentTok Token.rightBracket]
          [ParseCondition.currentTok Token.paragraphBreak,
           ParseCondition.currentTok Token.lineBreak] (toks.length + 1) pos2 =
          Except.ok (label, pos3) ∧
        p' = pos3 ∧
        ((∃ u, iw raw = some u ∧ url_valid isUrl u = true ∧
            e = Element.link u (trimStr label) target true) ∨
         (iw raw = none ∧ url_valid isUrl raw = true ∧
            e = Element.link raw (trimStr label) target false))) ∧
    (∀ target toks pos raw pos2,
      collect_text toks [ParseCondition.currentTok Token.whitespace]
        [ParseCondition.currentTok Token.rightBracket,
         ParseCondition.currentTok Token.paragraphBreak,
         ParseCondition.currentTok Token.lineBreak] (toks.length + 1) pos =
        Except.ok (raw, pos2) →
      iw raw = none → url_valid isUrl raw = false →
      try_consume_link iw isUrl target toks pos =
        Except.error (ParseFail.warn ParseWarningKind.invalidUrl)) ∧
    (isUrl "https://example.com/" = true →
     iw "https://example.com/" = none →
     link_rule iw isUrl c1stoks 0 =
       Except.ok (Element.link "https://example.com/" "Label text" none false, 7)) := by
  have hA : try_consume_link iw isUrl none c1toks 1 =
      Except.error (ParseFail.warn ParseWarningKind.invalidUrl) := by
    have e1 : try_consume_link iw isUrl none c1toks 1 =
        link_after_raw iw isUrl none c1toks "" 2 := rfl
    rw [e1]
    unfold link_after_raw
    rw [hiw]
    rfl
  have hB : link_rule iw isUrl c1toks 0 =
      Except.error (ParseFail.warn ParseWarningKind.invalidUrl) := by
    have e0 : link_rule iw isUrl c1toks 0 = try_consume_link iw isUrl none c1toks 1 := rfl
    rw [e0, hA]
  refine ⟨hB, ?_, ?_, ?_, ?_⟩
  · have e0 : consumeLoop iw isUrl c1toks (c1toks.length + 1) 0 =
        ruleStep (consumeLoop iw isUrl c1toks c1toks.length) "[" 0
          (link_rule iw isUrl c1toks 0) := rfl
    rw [e0, hB]
    rfl
  · intro target toks pos e p' h
    unfold try_consume_link at h
    split at h
    · simp at h
    · rename_i raw pos2 hcoll
      unfold link_after_raw at h
      cases hi : iw raw with
      | some u =>
        rw [hi] at h
        dsimp only at h
        split at h
        · simp at h
        · rename_i hval
          have hval' : url_valid isUrl u = true := by
            cases hv : url_valid isUrl u
            · exact absurd hv hval
            · rfl
          split at h
          · simp at h
          · rename_i label pos3 hlab
            simp only [Except.ok.injEq, Prod.mk.injEq] at h
            exact ⟨raw, pos2, label, pos3, hcoll, hlab, h.2.symm,
              Or.inl ⟨u, hi, hval', h.1.symm⟩⟩
      | none =>
        rw [hi] at h
        dsimp only at h
        split at h
        · simp at h
        · rename_i hval
          have hval' : url_valid isUrl raw = true := by
            cases hv : url_valid isUrl raw
            · exact absurd hv hval
            · rfl
          split at h
          · simp at h
          · rename_i label pos3 hlab
            simp only [Except.ok.injEq, Prod.mk.injEq] at h
            exact ⟨raw, pos2, label, pos3, hcoll, hlab, h.2.symm,
              Or.inr ⟨hi, hval', h.1.symm⟩⟩
  · intro target toks pos raw pos2 hcoll hiwr hval
    unfold try_consume_link
    rw [hcoll]
    dsimp only
    unfold link_after_raw
    rw [hiwr]
    dsimp only
    rw [hval]
    rfl
  · intro his hiw2
    have hv : url_valid isUrl "https://example.com/" = true := by
      unfold url_valid
      rw [his]
      decide
    have e0 : link_rule iw isUrl c1stoks 0 =
        link_after_raw iw isUrl none c1stoks "https://example.com/" 3 := rfl
    rw [e0]
    unfold link_after_raw
    rw [hiw2]
    dsimp only
    rw [hv]
    rfl


/-- A concrete interwiki resolver that accepts nothing. -/
def c1iw : String → Option String := fun _ => none

/-- A concrete url predicate accepting exactly the example URL. -/
def c1isUrl : String → Bool := fun s => s == "https://example.com/"

theorem c1_link_single_witness :
    (link_rule c1iw c1isUrl c1toks 0 =
      Except.error (ParseFail.warn ParseWarningKind.invalidUrl)) ∧
    (consumeLoop c1iw c1isUrl c1toks (c1toks.length + 1) 0 =
      ([Element.text "[", Element.text " ", Element.text "Label",
        Element.text "]"], [ParseWarningKind.invalidUrl])) ∧
    (∀ target toks pos e p',
      try_consume_link c1iw c1isUrl target toks pos = Except.ok (e, p') →
      ∃ raw pos2 label pos3,
        collect_text toks [ParseCondition.currentTok Token.whitespace]
          [ParseCondition.currentTok Token.rightBracket,
           ParseCondition.currentTok Token.paragraphBreak,
           ParseCondition.currentTok Token.lineBreak] (toks.length + 1) pos =
          Except.ok (raw, pos2) ∧
        collect_text toks [ParseCondition.currentTok Token.rightBracket]
          [ParseCondition.currentTok Token.paragraphBreak,
           ParseCondition.currentTok Token.lineBreak] (toks.length + 1) pos2 =
          Except.ok (label, pos3) ∧
        p' = pos3 ∧
        ((∃ u, c1iw raw = some u ∧ url_valid c1isUrl u = true ∧
            e = Element.link u (trimStr label) target true) ∨
         (c1iw raw = none ∧ url_valid c1isUrl raw = true ∧
            e = Element.link raw (trimStr label) target false))) ∧
    (∀ target toks pos raw pos2,
      collect_text toks [ParseCondition.currentTok Token.whitespace]
        [ParseCondition.currentTok Token.rightBracket,
         ParseCondition.currentTok Token.paragraphBreak,
         ParseCondition.currentTok Token.lineBreak] (toks.length + 1) pos =
        Except.ok (raw, pos2) →
      c1iw raw = none → url_valid c1isUrl raw = false →
      try_consume_link c1iw c1isUrl target toks pos =
        Except.error (ParseFail.warn ParseWarningKind.invalidUrl)) ∧
    (c1isUrl "https://example.com/" = true →
     c1iw "https://example.com/" = none →
     link_rule c1iw c1isUrl c1stoks 0 =
       Except.ok (Element.link "https://example.com/" "Label text" none false, 7)) :=
  c1_link_single c1iw c1isUrl rfl


/-- The conversion loop of parse_block in ruby.rs: each
Partial(RubyText{attributes, elements}) child is replaced by a Container of
kind RubyText with the same attributes and elements; all other children are
left as-is (the source matches them with a catch-all `_ => continue`). -/
def ruby_convert : List Element → List Element
  | [] => []
  | Element.pending (PendingElement.rubyText attrs els) :: rest =>
    Element.container ContainerType.rubyText attrs els :: ruby_convert rest
  | e :: rest => e :: ruby_convert rest

/-- parse_block of ruby.rs after head and body collection: convert the ruby
partials among the body elements, then wrap everything in a Container of
kind Ruby carrying the head's attribute map (head parsing and body
collection are taken as parameters: the argument map and the collected
children). -/
def ruby_parse_block (args : List (String × String)) (els : List Element) : Element :=
  Element.container ContainerType.ruby args (ruby_convert els)

/-- Whether an element is still an intermediate (`Partial`) element. -/
def isPending : Element → Bool
  | Element.pending _ => true
  | _ => false

/-- Whether an element is either not a partial at all, or the RubyText
partial (the kind the ruby block's parser wrap accepts). -/
def pendingIsRuby : Element → Bool
  | Element.pending (PendingElement.rubyText _ _) => true
  | Element.pending (PendingElement.otherPending _) => false
  | _ => true

theorem ruby_convert_length (els : List Element) :
    (ruby_convert els).length = els.length := by
  induction els with
  | nil => rfl
  | cons e rest ih =>
    match e with
    | Element.pending (PendingElement.rubyText attrs els2) =>
      simpa [ruby_convert] using ih
    | Element.pending (PendingElement.otherPending els2) =>
      simpa [ruby_convert] using ih
    | Element.text s => simpa [ruby_convert] using ih
    | Element.link u l t i => simpa [ruby_convert] using ih
    | Element.container ty a c => simpa [ruby_convert] using ih
    | Element.list lt items => simpa [ruby_convert] using ih
    | Element.definitionList items => simpa [ruby_convert] using ih

theorem ruby_convert_get_ruby (els : List Element) :
    ∀ i attrs relems,
      els.get? i = some (Element.pending (PendingElement.rubyText attrs relems)) →
      (ruby_convert els).get? i =
        some (Element.container ContainerType.rubyText attrs relems) := by
  induction els with
  | nil => intro i attrs relems h; simp at h
  | cons e rest ih =>
    intro i attrs relems h
    match i with
    | 0 =>
      simp only [List.get?] at h
      injection h with h
      rw [h]
      rfl
    | i + 1 =>
      simp only [List.get?] at h
      have := ih i attrs relems h
      match e with
      | Element.pending (PendingElement.rubyText a2 e2) => simpa [ruby_convert] using this
      | Element.pending (PendingElement.otherPending e2) => simpa [ruby_convert] using this
      | Element.text s => simpa [ruby_convert] using this
      | Element.link u l t ifl => simpa [ruby_convert] using this
      | Element.container ty a c => simpa [ruby_convert] using this
      | Element.list lt items => simpa [ruby_convert] using this
      | Element.definitionList items => simpa [ruby_convert] using this

theorem ruby_convert_get_other (els : List Element) :
    ∀ i e, els.get? i = some e → (∀ p, e ≠ Element.pending p) →
      (ruby_convert els).get? i = some e := by
  induction els with
  | nil => intro i e h; simp at h
  | cons e0 rest ih =>
    intro i e h hnp
    match i with
    | 0 =>
      simp only [List.get?] at h
      injection h with h
      rw [← h]
      match e0, h with
      | Element.pending p, h => exact absurd h.symm (hnp p)
      | Element.text s, _ => rfl
      | Element.link u l t ifl, _ => rfl
      | Element.container ty a c, _ => rfl
      | Element.list lt items, _ => rfl
      | Element.definitionList items, _ => rfl
    | i + 1 =>
      simp only [List.get?] at h
      have := ih i e h hnp
      match e0 with
      | Element.pending (PendingElement.rubyText a2 e2) => simpa [ruby_convert] using this
      | Element.pending (PendingElement.otherPending e2) => simpa [ruby_convert] using this
      | Element.text s => simpa [ruby_convert] using this
      | Element.link u l t ifl => simpa [ruby_convert] using this
      | Element.container ty a c => simpa [ruby_convert] using this
      | Element.list lt items => simpa [ruby_convert] using this
      | Element.definitionList items => simpa [ruby_convert] using this

theorem ruby_convert_no_pending (els : List Element)
    (hp : els.all pendingIsRuby = true) :
    ∀ c ∈ ruby_convert els, isPending c = false := by
  induction els with
  | nil => intro c hc; simp [ruby_convert] at hc
  | cons e rest ih =>
    simp only [List.all_cons, Bool.and_eq_true] at hp
    intro c hc
    match e, hp.1 with
    | Element.pending (PendingElement.rubyText a2 e2), _ =>
      rcases (by simpa [ruby_convert] using hc : _ ∨ _) with h | h
      · rw [h]; rfl
      · exact ih hp.2 c h
    | Element.text s, _ =>
      rcases (by simpa [ruby_convert] using hc : _ ∨ _) with h | h
      · rw [h]; rfl
      · exact ih hp.2 c h
    | Element.link u l t ifl, _ =>
      rcases (by simpa [ruby_convert] using hc : _ ∨ _) with h | h
      · rw [h]; rfl
      · exact ih hp.2 c h
    | Element.container ty a c2, _ =>
      rcases (by simpa [ruby_convert] using hc : _ ∨ _) with h | h
      · rw [h]; rfl
      · exact ih hp.2 c h
    | Element.list lt items, _ =>
      rcases (by simpa [ruby_convert] using hc : _ ∨ _) with h | h
      · rw [h]; rfl
      · exact ih hp.2 c h
    | Element.definitionList items, _ =>
      rcases (by simpa [ruby_convert] using hc : _ ∨ _) with h | h
      · rw [h]; rfl
      · exact ih hp.2 c h


/-- C8: in the Ruby container built by the ruby block parse function, every
child that was a Partial(RubyText) has become a Container of kind RubyText
with the same attributes and elements, every other child is unchanged at
its position (so the order is preserved and the lengths agree), and — since
the parser wrap only admits the RubyText partial among the children — no
partial element remains. -/
theorem c8_ruby_partial_conversion (args : List (String × String))
    (els : List Element) (hp : els.all pendingIsRuby = true) :
    ∃ children,
      ruby_parse_block args els = Element.container ContainerType.ruby args children ∧
      children.length = els.length ∧
      (∀ i attrs relems,
        els.get? i = some (Element.pending (PendingElement.rubyText attrs relems)) →
        children.get? i = some (Element.container ContainerType.rubyText attrs relems)) ∧
      (∀ i e, els.get? i = some e → (∀ p, e ≠ Element.pending p) →
        children.get? i = some e) ∧
      (∀ c ∈ children, isPending c = false) :=
  ⟨ruby_convert els, rfl, ruby_convert_length els, ruby_convert_get_ruby els,
   ruby_convert_get_other els, ruby_convert_no_pending els hp⟩

/-- A concrete ruby body: a RubyText partial followed by ordinary text. -/
def c8els : List Element :=
  [Element.pending (PendingElement.rubyText [("class", "x")] [Element.text "ru"]),
   Element.text "base"]

theorem c8_ruby_partial_conversion_witness :
    ∃ children,
      ruby_parse_block [("id", "r1")] c8els =
        Element.container ContainerType.ruby [("id", "r1")] children ∧
      children.length = c8els.length ∧
      (∀ i attrs relems,
        c8els.get? i = some (Element.pending (PendingElement.rubyText attrs relems)) →
        children.get? i = some (Element.container ContainerType.rubyText attrs relems)) ∧
      (∀ i e, c8els.get? i = some e → (∀ p, e ≠ Element.pending p) →
        children.get? i = some e) ∧
      (∀ c ∈ children, isPending c = false) :=
  c8_ruby_partial_conversion [("id", "r1")] c8els (by rfl)


/-- Modelled from the spec: JSON values as produced by the serializer
(numbers carried as their rendered numeral, for example "69.0"). -/
inductive JValue where
  | null
  | bool (b : Bool)
  | num (s : String)
  | str (s : String)
  | arr (items : List JValue)
  | obj (fields : List (String × JValue))

/-- Modelled from the spec: JSON string escaping (quote, backslash and the
common control characters; no other escapes occur in the wire data). -/
def escapeChar (c : Char) : String :=
  if c = '\"' then "\\\""
  else if c = '\\' then "\\\\"
  else if c = '\n' then "\\n"
  else if c = '\t' then "\\t"
  else if c = '\r' then "\\r"
  else String.singleton c

def quoteStr (s : String) : String :=
  "\"" ++ String.join (s.data.map escapeChar) ++ "\""

/-- Modelled from the spec: the minified JSON formatter used by the
compact renderer: no whitespace, commas between items, a colon after each
key. -/
def renderCompact : Nat → JValue → String
  | 0, _ => ""
  | _ + 1, JValue.null => "null"
  | _ + 1, JValue.bool true => "true"
  | _ + 1, JValue.bool false => "false"
  | _ + 1, JValue.num s => s
  | _ + 1, JValue.str s => quoteStr s
  | fuel + 1, JValue.arr items =>
    "[" ++ String.intercalate "," (items.map (fun v => renderCompact fuel v)) ++ "]"
  | fuel + 1, JValue.obj fields =>
    "\x7b" ++ String.intercalate ","
      (fields.map (fun kv => quoteStr kv.1 ++ ":" ++ renderCompact fuel kv.2)) ++ "\x7d"

def indentStr : Nat → String
  | 0 => ""
  | n + 1 => "  " ++ indentStr n

/-- Modelled from the spec: the human-readable JSON formatter used by the
pretty renderer: two-space indentation, one item per line, a colon and a
space after each key, empty containers printed inline. -/
def renderPretty : Nat → Nat → JValue → String
  | 0, _, _ => ""
  | _ + 1, _, JValue.null => "null"
  | _ + 1, _, JValue.bool true => "true"
  | _ + 1, _, JValue.bool false => "false"
  | _ + 1, _, JValue.num s => s
  | _ + 1, _, JValue.str s => quoteStr s
  | _ + 1, _, JValue.arr [] => "[]"
  | fuel + 1, ind, JValue.arr (it :: its) =>
    "[\n" ++ String.intercalate ",\n"
      ((it :: its).map (fun v => indentStr (ind + 1) ++ renderPretty fuel (ind + 1) v)) ++
    "\n" ++ indentStr ind ++ "]"
  | _ + 1, _, JValue.obj [] => "\x7b\x7d"
  | fuel + 1, ind, JValue.obj (f :: fs) =>
    "\x7b\n" ++ String.intercalate ",\n"
      ((f :: fs).map (fun kv =>
        indentStr (ind + 1) ++ quoteStr kv.1 ++ ": " ++ renderPretty fuel (ind + 1) kv.2)) ++
    "\n" ++ indentStr ind ++ "\x7d"

/-- Modelled from the spec: the serialization of the Page-mode settings
(mode page, page syntax on, true ids on, local paths allowed), kebab-case
keys. -/
def settingsJson : JValue :=
  JValue.obj [("mode", JValue.str "page"),
              ("enable-page-syntax", JValue.bool true),
              ("use-true-ids", JValue.bool true),
              ("allow-local-paths", JValue.bool true)]

/-- Modelled from the spec: the serialization of the dummy PageInfo used
by the render tests, kebab-case keys. -/
def pageInfoJson : JValue :=
  JValue.obj [("page", JValue.str "some-page"),
              ("category", JValue.null),
              ("site", JValue.str "sandbox"),
              ("title", JValue.str "A page for the age"),
              ("alt-title", JValue.null),
              ("rating", JValue.num "69.0"),
              ("tags", JValue.arr [JValue.str "tale", JValue.str "_cc"]),
              ("language", JValue.str "default")]

def containerTypeName : ContainerType → String
  | ContainerType.paragraph => "paragraph"
  | ContainerType.bold => "bold"
  | ContainerType.italics => "italics"
  | ContainerType.underline => "underline"
  | ContainerType.strikethrough => "strikethrough"
  | ContainerType.ruby => "ruby"
  | ContainerType.rubyText => "ruby-text"

/-- Modelled from the spec: each element serializes as an object with an
`element` kind tag and a `data` variant body; a container body holds its
type, attribute map and child elements.  Only the element kinds occurring
in the serialized test tree (text and container) are embedded. -/
def elementJson : Nat → Element → JValue
  | 0, _ => JValue.null
  | _ + 1, Element.text s =>
    JValue.obj [("element", JValue.str "text"), ("data", JValue.str s)]
  | fuel + 1, Element.container ty attrs children =>
    JValue.obj [("element", JValue.str "container"),
      ("data", JValue.obj
        [("type", JValue.str (containerTypeName ty)),
         ("attributes", JValue.obj (attrs.map (fun kv => (kv.1, JValue.str kv.2)))),
         ("elements", JValue.arr (children.map (fun e => elementJson fuel e)))])]
  | _ + 1, _ => JValue.null

/-- The syntax-tree object of render/json.rs: `elements`, `styles`,
`table-of-contents`, `footnotes` (kebab-case; the test tree carries no
table of contents and no footnotes). -/
def syntaxTreeJson (els : List Element) (styles : List String) : JValue :=
  JValue.obj [("elements", JValue.arr (els.map (fun e => elementJson (els.length + 8) e))),
              ("styles", JValue.arr (styles.map JValue.str)),
              ("table-of-contents", JValue.arr []),
              ("footnotes", JValue.arr [])]

/-- The JsonWrapper of render/json.rs render: settings, page-info and
syntax-tree, in that order, with kebab-case keys. -/
def jsonWrapper (settings pinfo tree : JValue) : JValue :=
  JValue.obj [("settings", settings), ("page-info", pinfo),
              ("syntax-tree", tree)]

/-- JsonRender::render of render/json.rs: pretty or compact formatting of
the wrapper object. -/
def json_render (prettyFlag : Bool) (v : JValue) : String :=
  if prettyFlag then renderPretty 32 0 v else renderCompact 32 v

/-- The test syntax tree of the json test in render/json.rs. -/
def c9tree : List Element :=
  [Element.text "apple", Element.text " ",
   Element.container ContainerType.bold [] [Element.text "banana"]]

/-- The style sheet carried by the test tree. -/
def c9styles : List String := ["span.hidden-text \x7b display: none; \x7d"]

def c9value : JValue :=
  jsonWrapper settingsJson pageInfoJson (syntaxTreeJson c9tree c9styles)

def fieldNames : JValue → List String
  | JValue.obj fs => fs.map Prod.fst
  | _ => []

/-- The PRETTY_OUTPUT constant of the json test in render/json.rs. -/
def c9prettyExpected : String :=
  "\x7b\n  \"settings\": \x7b\n    \"mode\": \"page\",\n    \"enable-page-syntax\": true,\n    \"use-true-ids\": true,\n    \"allow-local-paths\": true\n  \x7d,\n  \"page-info\": \x7b\n    \"page\": \"some-page\",\n    \"category\": null,\n    \"site\": \"sandbox\",\n    \"title\": \"A page for the age\",\n    \"alt-title\": null,\n    \"rating\": 69.0,\n    \"tags\": [\n      \"tale\",\n      \"_cc\"\n    ],\n    \"language\": \"default\"\n  \x7d,\n  \"syntax-tree\": \x7b\n    \"elements\": [\n      \x7b\n        \"element\": \"text\",\n        \"data\": \"apple\"\n      \x7d,\n      \x7b\n        \"element\": \"text\",\n        \"data\": \" \"\n      \x7d,\n      \x7b\n        \"element\": \"container\",\n        \"data\": \x7b\n          \"type\": \"bold\",\n          \"attributes\": \x7b\x7d,\n          \"elements\": [\n            \x7b\n              \"element\": \"text\",\n              \"data\": \"banana\"\n            \x7d\n          ]\n        \x7d\n      \x7d\n    ],\n    \"styles\": [\n      \"span.hidden-text \x7b display: none; \x7d\"\n    ],\n    \"table-of-contents\": [],\n    \"footnotes\": []\n  \x7d\n\x7d"

/-- The COMPACT_OUTPUT constant of the json test in render/json.rs. -/
def c9compactExpected : String :=
  "\x7b\"settings\":\x7b\"mode\":\"page\",\"enable-page-syntax\":true,\"use-true-ids\":true,\"allow-local-paths\":true\x7d,\"page-info\":\x7b\"page\":\"some-page\",\"category\":null,\"site\":\"sandbox\",\"title\":\"A page for the age\",\"alt-title\":null,\"rating\":69.0,\"tags\":[\"tale\",\"_cc\"],\"language\":\"default\"\x7d,\"syntax-tree\":\x7b\"elements\":[\x7b\"element\":\"text\",\"data\":\"apple\"\x7d,\x7b\"element\":\"text\",\"data\":\" \"\x7d,\x7b\"element\":\"container\",\"data\":\x7b\"type\":\"bold\",\"attributes\":\x7b\x7d,\"elements\":[\x7b\"element\":\"text\",\"data\":\"banana\"\x7d]\x7d\x7d],\"styles\":[\"span.hidden-text \x7b display: none; \x7d\"],\"table-of-contents\":[],\"footnotes\":[]\x7d\x7d"


set_option maxRecDepth 20000 in
/-- C9: the serialized top-level object has exactly the kebab-case fields
settings, page-info, syntax-tree; the syntax-tree object has exactly
elements, styles, table-of-contents, footnotes; and for the test tree with
the dummy PageInfo and Page-mode settings both the pretty and the compact
renderings are byte-identical to the expected strings of the json test. -/
theorem c9_json_serialization :
    fieldNames c9value = ["settings", "page-info", "syntax-tree"] ∧
    fieldNames (syntaxTreeJson c9tree c9styles) =
      ["elements", "styles", "table-of-contents", "footnotes"] ∧
    json_render true c9value = c9prettyExpected ∧
    json_render false c9value = c9compactExpected :=
  ⟨rfl, rfl, by decide, by decide⟩

end Ftml
